import Mathlib

/-!
Verification of the duplicate-image detection and data-safety core of the
clone-image-deleting application.

The JavaScript sources are shallowly embedded: JS numbers become `ℚ`
(or `ℝ` where `Math.sqrt` is involved), JS arrays become `List`s, the
filesystem becomes an explicit map from paths to content digests, and
fallible operations return `Except`/`Option`.  Every definition follows the
corresponding function of the source (file and line references are given in
the doc comments).
-/

namespace CloneImage

/-! ## Perceptual similarity primitives (aiDetectionEnterprise) -/

/-- An 8-bit RGB pixel, as read from a decoded bitmap (`jimp` scan callbacks
read `data[idx]`, `data[idx+1]`, `data[idx+2]`). -/
structure RGBPixel where
  r : Fin 256
  g : Fin 256
  b : Fin 256
deriving DecidableEq

/-- A 256-bin per-channel color histogram, `{ r: Array(256), g: …, b: … }`. -/
structure Histogram where
  r : Fin 256 → ℕ
  g : Fin 256 → ℕ
  b : Fin 256 → ℕ

/-- Embeds `generateHistogram` (part_000 lines 748-759): one pass over all pixels of
the image, incrementing the bin of each channel value.  Incrementing a bin
once per pixel is modelled as counting the pixels that fall in the bin. -/
def generateHistogram (pixels : List RGBPixel) : Histogram where
  r := fun i => (pixels.map fun p => p.r).count i
  g := fun i => (pixels.map fun p => p.g).count i
  b := fun i => (pixels.map fun p => p.b).count i

/-- Embeds `compareHistograms` (part_000 lines 761-774): per channel, sum the
pointwise minima of the two histograms over all 256 bins, add the three
channel sums, and divide by `3 * 256`  (the code's literal `// Normalize`
divisor — not by the number of samples). -/
def compareHistograms (h1 h2 : Histogram) : ℚ :=
  (((∑ i, min (h1.r i) (h2.r i)) + (∑ i, min (h1.g i) (h2.g i))
      + (∑ i, min (h1.b i) (h2.b i)) : ℕ) : ℚ) / (3 * 256)

/-- The histogram-intersection similarity as the specification words it
(spec §4.2 item 3): per channel `sum(min(h1[i],h2[i])) / totalSamples`,
averaged across the three channels.  Used only to compare with
`compareHistograms`. -/
def specHistogramIntersection (h1 h2 : Histogram) (totalSamples : ℕ) : ℚ :=
  (((∑ i, min (h1.r i) (h2.r i) : ℕ) : ℚ) / totalSamples
    + ((∑ i, min (h1.g i) (h2.g i) : ℕ) : ℚ) / totalSamples
    + ((∑ i, min (h1.b i) (h2.b i) : ℕ) : ℚ) / totalSamples) / 3

/-- Embeds `calculateHashSimilarity` (part_000 lines 737-746): fraction of positions
at which the two bit strings agree; `0` when the lengths differ. -/
def calculateHashSimilarity (hash1 hash2 : List Bool) : ℚ :=
  if hash1.length ≠ hash2.length then 0
  else (((hash1.zip hash2).countP fun p => p.1 = p.2 : ℕ) : ℚ) / hash1.length

/-- Embeds `calculateStructuralSimilarity` (part_000 lines 591-627), after both
images have been resized to the same grid: average per-pixel Euclidean RGB
distance, normalized by `sqrt(3 * 255^2)`, similarity `1 - normalized`.
The scan walks `image1` and reads the same coordinate of `image2`, which is
the `zip` of the two pixel lists. -/
noncomputable def calculateStructuralSimilarity (img1 img2 : List RGBPixel) : ℝ :=
  let pairs := img1.zip img2
  let totalDiff := (pairs.map fun pq =>
    Real.sqrt (((pq.1.r : ℝ) - pq.2.r) ^ 2 + ((pq.1.g : ℝ) - pq.2.g) ^ 2
      + ((pq.1.b : ℝ) - pq.2.b) ^ 2)).sum
  let avgDiff := totalDiff / pairs.length
  1 - avgDiff / Real.sqrt (3 * 255 ^ 2)

/-! ## Image records and duplicate groups -/

/-- An image record as produced by the scan collaborator (`fileScanner.js`
`processImage`) and consumed by the detection engine.  `modified` is the
modification timestamp in milliseconds, `hash` the content digest string the
scanner stored on the record. -/
structure ImageRec where
  path : String
  size : ℚ
  modified : ℚ
  resolution : ℚ
  format : String
  hash : String
  recommended : Bool
  qualityScore : ℚ
deriving DecidableEq

/-- A duplicate group as pushed by `detectDuplicates` (part_000 lines 71-77
and 204-212).  `gtype` embeds the source field `type` (a Lean keyword). -/
structure DupGroup where
  gtype : String
  images : List ImageRec
  similarity : ℚ
  confidence : String
  detectionMethod : String
  safetyVerified : Bool
deriving DecidableEq

/-- The deletion candidates of a group: every image that is not recommended
(`performSafetyChecks` filters `!img.recommended`; `bulkDelete` deletes
everything but the retained image). -/
def candidatesForDeletion (g : DupGroup) : List ImageRec :=
  g.images.filter fun i => ¬ i.recommended

/-! ## Provider consensus layer (part_000 lines 218-290, 386-414) -/

/-- One vote entering the weighted consensus (an element of `results`). -/
structure ProviderVote where
  provider : String
  similarity : ℚ
  confidence : ℚ
deriving DecidableEq

/-- The value of `AI_CONFIG.similarityThreshold` (part_000 line 37). -/
def similarityThreshold : ℚ := 92 / 100

/-- The weight table of `getMultiProviderConsensus` (part_000 lines 265-270),
with the `|| 0.1` default for unknown providers. -/
def providerWeight (p : String) : ℚ :=
  if p = "google" then 4 / 10
  else if p = "azure" then 35 / 100
  else if p = "aws" then 35 / 100
  else if p = "local-advanced" then 2 / 10
  else 1 / 10

/-- Embeds `compareWithAdvancedLocal` (part_000 lines 386-414): the four local
method results (each already degraded to `0` if its own try/catch fired) are
combined with weights `[0.3, 0.3, 0.2, 0.2]`; the local confidence is a
fixed `0.8`. -/
def compareWithAdvancedLocal (r1 r2 r3 r4 : ℚ) : ℚ × ℚ :=
  (r1 * (3 / 10) + r2 * (3 / 10) + r3 * (2 / 10) + r4 * (2 / 10), 8 / 10)

/-- The `results` list assembled by `getMultiProviderConsensus`
(part_000 lines 219-257): one optional vote per configured provider, then
always the local-advanced vote. -/
def consensusVotes (google azure aws : Option (ℚ × ℚ)) (r1 r2 r3 r4 : ℚ) :
    List ProviderVote :=
  (match google with
    | some sc => [⟨"google", sc.1, sc.2⟩]
    | none => [])
  ++ (match azure with
    | some sc => [⟨"azure", sc.1, sc.2⟩]
    | none => [])
  ++ (match aws with
    | some sc => [⟨"aws", sc.1, sc.2⟩]
    | none => [])
  ++ [⟨"local-advanced", (compareWithAdvancedLocal r1 r2 r3 r4).1,
        (compareWithAdvancedLocal r1 r2 r3 r4).2⟩]

/-- The `results.forEach` accumulation of `getMultiProviderConsensus`
(part_000 lines 272-281): running weighted similarity, weighted confidence
and total weight. -/
def consensusFold (votes : List ProviderVote) : ℚ × ℚ × ℚ :=
  votes.foldl
    (fun acc v =>
      (acc.1 + v.similarity * providerWeight v.provider,
       acc.2.1 + v.confidence * providerWeight v.provider,
       acc.2.2 + providerWeight v.provider))
    (0, 0, 0)

/-- Embeds `getMultiProviderConsensus` (part_000 lines 218-290): collect the
provider votes and the always-present local vote, return
`(0, 0)` when the vote list is empty (lines 260-262), otherwise the
accumulated weighted sums divided by the total weight. -/
def getMultiProviderConsensus (google azure aws : Option (ℚ × ℚ))
    (r1 r2 r3 r4 : ℚ) : ℚ × ℚ :=
  let results := consensusVotes google azure aws r1 r2 r3 r4
  if results = [] then (0, 0)
  else
    let acc := consensusFold results
    (acc.1 / acc.2.2, acc.2.1 / acc.2.2)

/-- The weighted-average consensus as the specification words it (spec §4.3):
final similarity and confidence are the weighted averages of the votes'
similarities and confidences over the same weights, normalized by the total
weight actually contributed.  Used only to compare with
`getMultiProviderConsensus`. -/
def specWeightedConsensus (votes : List ProviderVote) : ℚ × ℚ :=
  let totalWeight := (votes.map fun v => providerWeight v.provider).sum
  ((votes.map fun v => v.similarity * providerWeight v.provider).sum / totalWeight,
   (votes.map fun v => v.confidence * providerWeight v.provider).sum / totalWeight)

/-! ## Enterprise clustering (part_000 lines 149-216) -/

/-- The outcome of `getMultiProviderConsensus` for one pair as observed by
`detectWithEnterpriseAI`: either the consensus returned a similarity and a
confidence, or it threw and the catch block fell back to the local
perceptual-hash similarity of the pair (part_000 lines 192-200). -/
inductive ConsensusOutcome where
  | ok (similarity confidence : ℚ)
  | err (localSimilarity : ℚ)
deriving DecidableEq

/-- The absorption test of `detectWithEnterpriseAI` for one pair: on the
normal path `consensus.similarity >= threshold && consensus.confidence >= 0.9`
(line 173), on the catch path only `localSimilarity >= threshold`
(line 196). -/
def absorbMatch : ConsensusOutcome → Bool
  | .ok s c => decide (similarityThreshold ≤ s) && decide ((9 : ℚ) / 10 ≤ c)
  | .err l => decide (similarityThreshold ≤ l)

/-- The inner `for j` loop of `detectWithEnterpriseAI` (lines 163-201): scan
the candidate indices, skip processed ones, absorb a candidate (and mark it
processed) when `absorbMatch` fires.  Returns the absorbed indices and the
updated processed set. -/
def absorbScan (outcome : ℕ → ℕ → ConsensusOutcome) (i : ℕ) :
    List ℕ → List ℕ → List ℕ × List ℕ
  | [], processed => ([], processed)
  | j :: js, processed =>
    if j ∈ processed then absorbScan outcome i js processed
    else if absorbMatch (outcome i j) then
      let rest := absorbScan outcome i js (j :: processed)
      (j :: rest.1, rest.2)
    else absorbScan outcome i js processed

/-- The outer `for i` loop of `detectWithEnterpriseAI` (lines 155-213): each
unprocessed index seeds a cluster, scans all later indices, and a cluster is
kept only when it absorbed at least one other image.  Returns the kept
clusters as (seed, absorbed indices) pairs. -/
def seedLoop (outcome : ℕ → ℕ → ConsensusOutcome) (n : ℕ) :
    List ℕ → List ℕ → List (ℕ × List ℕ)
  | [], _ => []
  | i :: is, processed =>
    if i ∈ processed then seedLoop outcome n is processed
    else
      let scan := absorbScan outcome i (List.range' (i + 1) (n - (i + 1)))
        (i :: processed)
      (if scan.1 ≠ [] then [(i, scan.1)] else []) ++ seedLoop outcome n is scan.2

/-- All (seed, absorbed) index pairs produced by one clustering run. -/
def absorbedPairs (images : List ImageRec)
    (outcome : ℕ → ℕ → ConsensusOutcome) : List (ℕ × ℕ) :=
  (seedLoop outcome images.length (List.range images.length) []).flatMap
    fun c => c.2.map fun j => (c.1, j)

/-- Embeds `detectWithEnterpriseAI` (part_000 lines 149-216): greedy seed-absorption
clustering over the unique images; every kept cluster becomes an
`ai-detected` group with the threshold as group similarity. -/
def detectWithEnterpriseAI (images : List ImageRec)
    (outcome : ℕ → ℕ → ConsensusOutcome) : List DupGroup :=
  (seedLoop outcome images.length (List.range images.length) []).map fun c =>
    { gtype := "ai-detected"
      images := (c.1 :: c.2).filterMap fun k => images[k]?
      similarity := similarityThreshold
      confidence := "high"
      detectionMethod := "multi-provider-ai"
      safetyVerified := false }

/-! ## Quality scoring and ranking (part_000 lines 416-455) -/

/-- The format-preference table of `calculateQualityScore` (line 447) with
the `|| 0.5` default. -/
def formatScore (fmt : String) : ℚ :=
  if fmt = "png" then 1
  else if fmt = "tiff" then 9 / 10
  else if fmt = "jpg" then 7 / 10
  else if fmt = "jpeg" then 7 / 10
  else if fmt = "gif" then 1 / 2
  else if fmt = "bmp" then 6 / 10
  else if fmt = "webp" then 8 / 10
  else 1 / 2

/-- Models `format?.toLowerCase()` on the format tag. -/
def toLowerStr (s : String) : String := ⟨s.data.map Char.toLower⟩

/-- Models `image.path.split(/[\/\\]/).length` (line 451): a split on a separator
set always yields one more piece than there are separator characters. -/
def pathDepth (p : String) : ℕ :=
  (p.data.filter fun c => c = '/' || c = '\\').length + 1

/-- The unclamped sum of the five weighted quality factors of
`calculateQualityScore` (part_000 lines 433-454): resolution (0.4), file
size capped at 5 MB (0.2), recency decaying to 0 over 365 days (0.2),
format preference (0.1) and path depth capped at 10 (0.1).
`now` is `Date.now()` in milliseconds. -/
def rawQualityScore (now : ℚ) (img : ImageRec) : ℚ :=
  img.resolution / 10000000 * (4 / 10)
    + min (img.size / (5 * 1024 * 1024)) 1 * (2 / 10)
    + max 0 (1 - (now - img.modified) / (1000 * 60 * 60 * 24) / 365) * (2 / 10)
    + formatScore (toLowerStr img.format) * (1 / 10)
    + min ((pathDepth img.path : ℚ) / 10) 1 * (1 / 10)

/-- Embeds `calculateQualityScore` (part_000 lines 433-455): the weighted factor
sum, clamped to at most 1. -/
def calculateQualityScore (now : ℚ) (img : ImageRec) : ℚ :=
  min (rawQualityScore now img) 1

/-- Insert one element into a list already sorted by strictly descending
key, after every element of greater-or-equal key. -/
def insertDescBy (f : ImageRec → ℚ) (x : ImageRec) : List ImageRec → List ImageRec
  | [] => [x]
  | y :: ys => if f y ≥ f x then y :: insertDescBy f x ys else x :: y :: ys

/-- Models `group.images.sort((a, b) => b.qualityScore - a.qualityScore)` (line 425):
the stable descending sort by quality score, as an insertion sort. -/
def sortDescBy (f : ImageRec → ℚ) : List ImageRec → List ImageRec
  | [] => []
  | x :: xs => insertDescBy f x (sortDescBy f xs)

/-- The per-group body of `rankImagesWithML` (part_000 lines 418-430):
store the quality score on each image, sort the group by descending score,
and mark the first image recommended. -/
def rankGroup (now : ℚ) (g : DupGroup) : DupGroup :=
  let scored := g.images.map fun img =>
    { img with qualityScore := calculateQualityScore now img }
  { g with images :=
      match sortDescBy (fun i => i.qualityScore) scored with
      | [] => []
      | h :: t => { h with recommended := true } :: t }

/-- Embeds `rankImagesWithML` (part_000 lines 416-431): the per-group ranking body
applied to every group. -/
def rankImagesWithML (now : ℚ) (groups : List DupGroup) : List DupGroup :=
  groups.map (rankGroup now)

/-- Embeds `verifySafetyBeforeReturn` (part_000 lines 457-479): with the
recommended count taken before any fix-up, force the first image
recommended when the count is zero, force exactly the first image
recommended when the count reaches the group size, and set the
safety-verified flag.  (On an empty group the source would throw; the
model returns the empty group.)  This is the per-group body of
`verifySafetyBeforeReturn`. -/
def verifyGroup (g : DupGroup) : DupGroup :=
  let cnt := (g.images.filter fun i => i.recommended).length
  let imgs1 :=
    if cnt = 0 ∧ g.images.length > 0 then
      match g.images with
      | [] => []
      | h :: t => { h with recommended := true } :: t
    else g.images
  let imgs2 :=
    if cnt ≥ g.images.length then
      match imgs1 with
      | [] => []
      | h :: t => { h with recommended := true } ::
          t.map fun i => { i with recommended := false }
    else imgs1
  { g with images := imgs2, safetyVerified := true }

/-- Embeds `verifySafetyBeforeReturn` (part_000 lines 457-479): the per-group
fix-up applied to every group. -/
def verifySafetyBeforeReturn (groups : List DupGroup) : List DupGroup :=
  groups.map verifyGroup

/-! ## Exact grouping and the detection entry point (part_000 lines 55-122) -/

/-- The `Map` insertion both `groupByHash` variants rely on: append the
element to the bucket of its key when one exists, otherwise open a new
bucket at the end (JS `Map`s iterate in insertion order). -/
def bucketInsert {κ α : Type} [DecidableEq κ] (key : α → κ) :
    List (κ × List α) → α → List (κ × List α)
  | [], x => [(key x, [x])]
  | (k, g) :: rest, x =>
    if k = key x then (k, g ++ [x]) :: rest
    else (k, g) :: bucketInsert key rest x

/-- Bucket a list by a key, in insertion order. -/
def groupByKey {κ α : Type} [DecidableEq κ] (key : α → κ) (xs : List α) :
    List (κ × List α) :=
  xs.foldl (bucketInsert key) []

/-- Embeds `groupByHash` of the enterprise module (part_000 lines 111-122): a `Map`
keyed by `image.hash` alone — the raw byte size is not part of the key. -/
def groupByHash (images : List ImageRec) : List (String × List ImageRec) :=
  groupByKey (fun i => i.hash) images

/-- Phase 1-2 of `detectDuplicates` (part_000 lines 55-109, with the
filesystem-writing analysis backup and the progress callbacks dropped):
hash buckets holding at least two images become `exact` groups with
similarity `1.0` and confidence `absolute`. -/
def exactGroups (images : List ImageRec) : List DupGroup :=
  (groupByHash images).filterMap fun kg =>
    if kg.2.length > 1 then
      some { gtype := "exact", images := kg.2, similarity := 1,
             confidence := "absolute", detectionMethod := "file-hash",
             safetyVerified := false }
    else none

/-- The singleton images that fall out of the exact phase and are handed to
`detectWithEnterpriseAI` (part_000 lines 78-80). -/
def uniqueImages (images : List ImageRec) : List ImageRec :=
  (groupByHash images).filterMap fun kg =>
    if kg.2.length > 1 then none else kg.2.head?

/-- Embeds `detectDuplicates` continued: the AI phase only runs when more than one
unique image remains (part_000 line 84). -/
def detectDuplicates (now : ℚ) (images : List ImageRec)
    (outcome : ℕ → ℕ → ConsensusOutcome) : List DupGroup :=
  let aiGroups :=
    if (uniqueImages images).length > 1 then
      detectWithEnterpriseAI (uniqueImages images) outcome
    else []
  verifySafetyBeforeReturn
    (rankImagesWithML now (exactGroups images ++ aiGroups))

/-! ## Simplified exact grouping (aiDetectionSimplified.js lines 126-153) -/

/-- A file as the simplified `groupByHash` sees it: a path and the raw byte
content (the content determines `stats.size` and the MD5 digest). -/
structure ScannedFile where
  path : String
  content : String
deriving DecidableEq

/-- The grouping key of the simplified `groupByHash`:
`` `${stats.size}-${contentHash}` ``.  Since the digest is fixed-width hex,
the template string is injective in the (size, digest) pair, which the model
keeps directly. -/
def simplifiedKey (digest : String → String) (f : ScannedFile) : ℕ × String :=
  (f.content.length, digest f.content)

/-- Embeds `groupByHash` of `aiDetectionSimplified.js` (lines 126-153): buckets
keyed by size plus content digest, in insertion order. -/
def groupByHashSimplified (digest : String → String) (files : List ScannedFile) :
    List ((ℕ × String) × List ScannedFile) :=
  groupByKey (simplifiedKey digest) files

/-- A duplicate group of the simplified detector (only the fields the exact
phase sets, `detectDuplicates` of aiDetectionSimplified.js lines 71-84). -/
structure SimpleGroup where
  gtype : String
  images : List ScannedFile
  similarity : ℚ
  confidence : String
deriving DecidableEq

/-- The exact phase of the simplified `detectDuplicates` (lines 71-84):
every bucket with more than one member becomes an `exact` group with
similarity `1.0` and confidence `absolute`. -/
def exactGroupsSimplified (digest : String → String) (files : List ScannedFile) :
    List SimpleGroup :=
  (groupByHashSimplified digest files).filterMap fun kg =>
    if kg.2.length > 1 then
      some { gtype := "exact", images := kg.2, similarity := 1,
             confidence := "absolute" }
    else none

/-! ## Safety engine (dataSafetyManager.js) -/

/-- The filesystem visible to the safety engine: each existing path carries
the digest of its content (content is identified with its collision-free
digest). -/
def Fs : Type := String → Option String

/-- One entry of a pre-deletion backup manifest (`copiedFiles.push`,
dataSafetyManager.js lines 95-100). -/
structure BackupEntry where
  originalPath : String
  hash : String
  verified : Bool
deriving DecidableEq

/-- Embeds `createPreDeletionBackup` (dataSafetyManager.js lines 69-134): walk the
paths in order; a missing path is silently skipped; an existing path is
copied and both the source and the copy are re-hashed — `copyDigest p` is
the digest the copy of `p` ends up with, so a faithful copy has
`copyDigest p` equal to the source digest.  A mismatch throws, which the
per-file catch rethrows, aborting the whole operation.  On success every
copied file yields a manifest entry with `verified := true`. -/
def createPreDeletionBackup (fs : Fs) (copyDigest : String → String) :
    List String → Except String (List BackupEntry)
  | [] => .ok []
  | p :: rest =>
    match fs p with
    | none => createPreDeletionBackup fs copyDigest rest
    | some d =>
      if copyDigest p = d then
        match createPreDeletionBackup fs copyDigest rest with
        | .ok entries => .ok (⟨p, d, true⟩ :: entries)
        | .error e => .error e
      else .error ("Backup verification failed for " ++ p)

/-- The result of `verifyFilesExist` (dataSafetyManager.js lines 136-158). -/
structure Verification where
  total : ℕ
  existing : ℕ
  missing : List String
  verified : Bool
deriving DecidableEq

/-- Embeds `verifyFilesExist` (dataSafetyManager.js lines 136-158). -/
def verifyFilesExist (fs : Fs) (paths : List String) : Verification :=
  paths.foldl
    (fun v p =>
      if (fs p).isSome then { v with existing := v.existing + 1 }
      else { v with missing := v.missing ++ [p], verified := false })
    { total := paths.length, existing := 0, missing := [], verified := true }

/-- One manifest entry as read back by `restoreFromBackup`
(dataSafetyManager.js lines 262-281). -/
structure ManifestFile where
  originalPath : String
  backupPath : String
  hash : String
deriving DecidableEq

/-- The state accumulated by the restore loop: the filesystem plus the
`restored` and `failed` report lists. -/
structure RestoreState where
  fs : Fs
  restored : List String
  failed : List (String × String)

/-- One iteration of the `restoreFromBackup` loop (dataSafetyManager.js
lines 262-281): an entry whose original path already exists is reported
restored without copying; otherwise the backup content is copied back
(a missing backup file makes `fs.copy` throw, reported as failed), then the
restored file is re-hashed and a digest mismatch is reported as failed —
note the copy itself has already happened in that case.
`backupFs` maps backup paths to the digest of their content. -/
def restoreStep (backupFs : String → Option String) (st : RestoreState)
    (f : ManifestFile) : RestoreState :=
  match st.fs f.originalPath with
  | some _ => { st with restored := st.restored ++ [f.originalPath] }
  | none =>
    match backupFs f.backupPath with
    | none => { st with failed := st.failed ++ [(f.originalPath, "copy failed")] }
    | some content =>
      let fs' : Fs := fun q => if q = f.originalPath then some content else st.fs q
      if content = f.hash then
        { fs := fs', restored := st.restored ++ [f.originalPath],
          failed := st.failed }
      else
        { fs := fs', restored := st.restored,
          failed := st.failed ++ [(f.originalPath, "Hash mismatch after restore")] }

/-- Embeds `restoreFromBackup` (dataSafetyManager.js lines 249-300), given the
manifest's file list already parsed. -/
def restoreFromBackup (backupFs : String → Option String)
    (files : List ManifestFile) (fs : Fs) : RestoreState :=
  files.foldl (restoreStep backupFs) ⟨fs, [], []⟩

/-! ## Deletion manager (deletionManager.js lines 14-63) -/

/-- The result object of `deleteFiles`. -/
structure DeleteResult where
  deleted : List String
  failed : List (String × String)
  total : ℕ

/-- One iteration of the `deleteFiles` loop (deletionManager.js lines
26-49): a missing file is reported failed with `File not found`; an
existing file is sent to the trash (`trash p` models the fallible
`trash([filePath])` call), a trash error is caught and reported failed with
its message.  When the trash succeeds, the file is removed and the path is
pushed onto `deleted`, and only then does the fallible audit-log append
`await logDeletion(filePath)` (line 36) run — modelled by `logDel p`; if
the append throws, the same per-file catch pushes the already-deleted path
onto `failed` as well. -/
def deleteStep (trash logDel : String → Except String Unit)
    (st : List String × List (String × String) × Fs) (p : String) :
    List String × List (String × String) × Fs :=
  if (st.2.2 p).isSome then
    match trash p with
    | .ok _ =>
      let fs' : Fs := fun q => if q = p then none else st.2.2 q
      match logDel p with
      | .ok _ => (st.1 ++ [p], st.2.1, fs')
      | .error e => (st.1 ++ [p], st.2.1 ++ [(p, e)], fs')
    | .error e => (st.1, st.2.1 ++ [(p, e)], st.2.2)
  else (st.1, st.2.1 ++ [(p, "File not found")], st.2.2)

/-- Embeds `deleteFiles` (deletionManager.js lines 14-63): `total` is the input
length, fixed up front; the loop never throws — every per-file failure is
caught and recorded. -/
def deleteFiles (fs : Fs) (trash logDel : String → Except String Unit)
    (paths : List String) : DeleteResult × Fs :=
  let st := paths.foldl (deleteStep trash logDel) ([], [], fs)
  ({ deleted := st.1, failed := st.2.1, total := paths.length }, st.2.2)

/-- The `delete-files` IPC handler (part_001 lines 106-142):
`createPreDeletionBackup` runs first and any error it throws propagates,
so no deletion happens; then `verifyFilesExist` must pass; only then does
`deleteFiles` run. -/
def deleteFilesHandler (fs : Fs) (copyDigest : String → String)
    (trash logDel : String → Except String Unit) (paths : List String) :
    Except String (DeleteResult × Fs) :=
  match createPreDeletionBackup fs copyDigest paths with
  | .error e => .error e
  | .ok _ =>
    let v := verifyFilesExist fs paths
    if v.verified then .ok (deleteFiles fs trash logDel paths)
    else .error "Cannot proceed: files are missing"

/-! ## Concrete example inputs used by counterexamples and witnesses -/

/-- An all-black 8-bit pixel. -/
def blackPixel : RGBPixel := ⟨0, 0, 0⟩

/-- A decoded image of two black pixels (any image whose sample count is not
256 exhibits the histogram normalization defect). -/
def twoPixelImage : List RGBPixel := [blackPixel, blackPixel]

/-- A minimal image record (used as clustering input by concrete runs). -/
def imgA : ImageRec :=
  { path := "a.jpg", size := 0, modified := 0, resolution := 0,
    format := "jpg", hash := "ha", recommended := false, qualityScore := 0 }

/-- A second minimal image record. -/
def imgB : ImageRec :=
  { path := "b.jpg", size := 0, modified := 0, resolution := 0,
    format := "jpg", hash := "hb", recommended := false, qualityScore := 0 }

/-- A consensus oracle under which every consensus computation throws and
the local fallback hash similarity is `0.95`. -/
def errOracle : ℕ → ℕ → ConsensusOutcome :=
  fun _ _ => ConsensusOutcome.err (95 / 100)

/-- A one-byte image record whose digest string is `"h"`. -/
def imgSize1 : ImageRec :=
  { path := "a", size := 1, modified := 0, resolution := 0,
    format := "png", hash := "h", recommended := false, qualityScore := 0 }

/-- A two-byte image record with the same digest string `"h"` (a digest
collision across different byte sizes). -/
def imgSize2 : ImageRec :=
  { path := "b", size := 2, modified := 0, resolution := 0,
    format := "png", hash := "h", recommended := false, qualityScore := 0 }

/-- The reference instant for the quality-ranking runs: 365 days in
milliseconds. -/
def nowC9 : ℚ := 31536000000

/-- A recently modified image: shallow path, zero byte size. -/
def imgNewC9 : ImageRec :=
  { path := "a.png", size := 0, modified := 31536000000,
    resolution := 1000000, format := "png", hash := "h1",
    recommended := false, qualityScore := 0 }

/-- An image modified 100 days earlier than `imgNewC9`, but 5 MB large and
ten levels deep in the directory tree. -/
def imgOldC9 : ImageRec :=
  { path := "a/b/c/d/e/f/g/h/i/j.png", size := 5242880,
    modified := 22896000000, resolution := 1000000, format := "png",
    hash := "h2", recommended := false, qualityScore := 0 }

/-- A duplicate group holding the newer image first and the older image
second. -/
def groupC9 : DupGroup :=
  { gtype := "ai-detected", images := [imgNewC9, imgOldC9],
    similarity := 92 / 100, confidence := "high",
    detectionMethod := "multi-provider-ai", safetyVerified := false }

/-- A recently modified image used by the amended ranking claim. -/
def imgTieNew : ImageRec :=
  { path := "a.png", size := 0, modified := 31536000000,
    resolution := 1000000, format := "png", hash := "h1",
    recommended := false, qualityScore := 0 }

/-- The same image except modified 100 days earlier. -/
def imgTieOld : ImageRec :=
  { path := "a.png", size := 0, modified := 22896000000,
    resolution := 1000000, format := "png", hash := "h2",
    recommended := false, qualityScore := 0 }

/-! # Theorems

Helper lemmas come first, then one theorem per claim (with its witness or
counterexample where required). -/

/-! ## Histogram and hash similarity lemmas -/

theorem count_sum_fin {α : Type} (f : α → Fin 256) (l : List α) :
    ∑ i : Fin 256, (l.map f).count i = l.length := by
  induction l with
  | nil => simp
  | cons a t ih =>
    have h : ∀ i : Fin 256, ((a :: t).map f).count i
        = (t.map f).count i + (if f a = i then 1 else 0) := by
      intro i
      by_cases h : f a = i <;> simp [List.count_cons, h]
    simp only [h, Finset.sum_add_distrib, ih]
    simp

theorem histogram_self_total (pixels : List RGBPixel) :
    compareHistograms (generateHistogram pixels) (generateHistogram pixels)
      = (3 * pixels.length : ℚ) / 768 := by
  simp only [compareHistograms, generateHistogram, min_self]
  rw [count_sum_fin, count_sum_fin, count_sum_fin]
  push_cast
  ring_nf

theorem spec_histogram_self (pixels : List RGBPixel) (h : pixels.length ≠ 0) :
    specHistogramIntersection (generateHistogram pixels)
      (generateHistogram pixels) pixels.length = 1 := by
  simp only [specHistogramIntersection, generateHistogram, min_self]
  rw [count_sum_fin, count_sum_fin, count_sum_fin]
  have h' : (pixels.length : ℚ) ≠ 0 := by exact_mod_cast h
  field_simp
  norm_num

theorem hash_self_countP (h : List Bool) :
    ((h.zip h).countP fun p => p.1 = p.2) = h.length := by
  induction h with
  | nil => simp
  | cons a t ih => simp [List.countP_cons, ih]

theorem structural_self_total (l : List RGBPixel) :
    ((l.zip l).map fun pq =>
      Real.sqrt (((pq.1.r : ℝ) - pq.2.r) ^ 2 + ((pq.1.g : ℝ) - pq.2.g) ^ 2
        + ((pq.1.b : ℝ) - pq.2.b) ^ 2)).sum = 0 := by
  induction l with
  | nil => simp
  | cons a t ih => simp [ih, sub_self]

/-- C5.  The claim states that the histogram-intersection similarity is the
per-channel `sum(min(h1[i],h2[i])) / totalSamples` averaged over the three
channels.  `compareHistograms` instead divides the summed minima by the
constant `3 * 256`, so for two identical two-pixel images the code returns
`1/128` while the claimed formula yields `1`.  The code contradicts its own
`// Normalize` intent (the value is not normalized to `[0,1]`) and the
spec's self-similarity property, so this is recorded as a code bug. -/
theorem claim_C5_histogram_normalization :
    compareHistograms (generateHistogram twoPixelImage)
        (generateHistogram twoPixelImage) = 1 / 128
    ∧ specHistogramIntersection (generateHistogram twoPixelImage)
        (generateHistogram twoPixelImage) twoPixelImage.length = 1
    ∧ (1 / 128 : ℚ) ≠ 1 := by
  refine ⟨?_, ?_, by norm_num⟩
  · rw [histogram_self_total]
    norm_num [twoPixelImage]
  · exact spec_histogram_self _ (by norm_num [twoPixelImage])

/-- C6.  The claim states that every local similarity method returns `1.0`
when an image is compared with itself.  The average-hash similarity and the
structural similarity do (first two conjuncts), but the histogram
intersection does not: on the two-pixel image it returns `1/128`, because
`compareHistograms` divides by the constant `768` instead of the sample
count.  Recorded as a code bug (same root cause as C5). -/
theorem claim_C6_self_similarity :
    (∀ h : List Bool, h ≠ [] → calculateHashSimilarity h h = 1)
    ∧ (∀ img : List RGBPixel, calculateStructuralSimilarity img img = 1)
    ∧ compareHistograms (generateHistogram twoPixelImage)
        (generateHistogram twoPixelImage) ≠ 1 := by
  refine ⟨?_, ?_, ?_⟩
  · intro h hne
    have hlen : (h.length : ℚ) ≠ 0 := by
      have hp : 0 < h.length := List.length_pos.mpr hne
      exact_mod_cast Nat.pos_iff_ne_zero.mp hp
    simp [calculateHashSimilarity, hash_self_countP, div_self hlen]
  · intro img
    simp [calculateStructuralSimilarity, structural_self_total]
  · rw [histogram_self_total]
    norm_num [twoPixelImage]

/-- C6 witness: the hash-similarity conjunct applied at the concrete
one-bit hash. -/
theorem claim_C6_self_similarity_witness :
    calculateHashSimilarity [true] [true] = 1 :=
  claim_C6_self_similarity.1 [true] (by simp)

/-! ## Consensus lemmas and claims C3, C4 -/

theorem consensusFold_eq (votes : List ProviderVote) :
    consensusFold votes
      = ((votes.map fun v => v.similarity * providerWeight v.provider).sum,
         (votes.map fun v => v.confidence * providerWeight v.provider).sum,
         (votes.map fun v => providerWeight v.provider).sum) := by
  suffices h : ∀ acc : ℚ × ℚ × ℚ,
      votes.foldl
        (fun acc v =>
          (acc.1 + v.similarity * providerWeight v.provider,
           acc.2.1 + v.confidence * providerWeight v.provider,
           acc.2.2 + providerWeight v.provider)) acc
      = (acc.1 + (votes.map fun v => v.similarity * providerWeight v.provider).sum,
         acc.2.1 + (votes.map fun v => v.confidence * providerWeight v.provider).sum,
         acc.2.2 + (votes.map fun v => providerWeight v.provider).sum) by
    simpa [consensusFold] using h (0, 0, 0)
  induction votes with
  | nil => intro acc; simp
  | cons v vs ih =>
    intro acc
    simp only [List.foldl_cons, ih, List.map_cons, List.sum_cons]
    simp [add_assoc]

theorem consensusVotes_ne_nil (google azure aws : Option (ℚ × ℚ))
    (r1 r2 r3 r4 : ℚ) : consensusVotes google azure aws r1 r2 r3 r4 ≠ [] := by
  simp [consensusVotes]

/-- C4, counterexample to the fail-closed sentence of the claim: with zero
providers succeeding and every local method failing (all four results `0`),
the consensus returns confidence `0.8` — the local-advanced vote with its
fixed confidence always contributes — not `0` as claimed. -/
theorem claim_C4_counterexample :
    getMultiProviderConsensus none none none 0 0 0 0 = (0, 4 / 5)
    ∧ ((4 : ℚ) / 5 ≠ 0) := by
  constructor
  · simp [getMultiProviderConsensus, consensusVotes, compareWithAdvancedLocal,
      consensusFold, providerWeight]
    norm_num
  · norm_num

/-- C4 as amended: (1) for every provider combination the consensus equals
the spec's weighted average of the contributing votes, normalized by the
total contributed weight; (2) when zero providers succeed and all four
local methods fail, the result is similarity `0` with confidence `0.8`
(not `0`), and such a pair still never passes the match gate, because
`0 < 0.92` and `0.8 < 0.9`. -/
theorem claim_C4_consensus_weighted_average :
    (∀ (google azure aws : Option (ℚ × ℚ)) (r1 r2 r3 r4 : ℚ),
      getMultiProviderConsensus google azure aws r1 r2 r3 r4
        = specWeightedConsensus (consensusVotes google azure aws r1 r2 r3 r4))
    ∧ getMultiProviderConsensus none none none 0 0 0 0 = (0, 4 / 5)
    ∧ absorbMatch (ConsensusOutcome.ok 0 (4 / 5)) = false := by
  refine ⟨?_, ?_, ?_⟩
  · intro google azure aws r1 r2 r3 r4
    rw [getMultiProviderConsensus, specWeightedConsensus]
    rw [if_neg (consensusVotes_ne_nil google azure aws r1 r2 r3 r4)]
    rw [consensusFold_eq]
  · simp [getMultiProviderConsensus, consensusVotes, compareWithAdvancedLocal,
      consensusFold, providerWeight]
    norm_num
  · simp only [absorbMatch, similarityThreshold]
    norm_num

theorem absorbScan_mem_match (outcome : ℕ → ℕ → ConsensusOutcome) (i : ℕ) :
    ∀ (js processed : List ℕ) (j : ℕ),
      j ∈ (absorbScan outcome i js processed).1 →
      absorbMatch (outcome i j) = true := by
  intro js
  induction js with
  | nil => intro processed j h; simp [absorbScan] at h
  | cons j' js ih =>
    intro processed j h
    rw [absorbScan] at h
    by_cases hp : j' ∈ processed
    · rw [if_pos hp] at h
      exact ih processed j h
    · rw [if_neg hp] at h
      by_cases hm : absorbMatch (outcome i j') = true
      · rw [if_pos hm] at h
        rcases List.mem_cons.mp h with h1 | h1
        · exact h1 ▸ hm
        · exact ih _ j h1
      · rw [if_neg hm] at h
        exact ih processed j h

theorem seedLoop_mem_match (outcome : ℕ → ℕ → ConsensusOutcome) (n : ℕ) :
    ∀ (is processed : List ℕ) (i j : ℕ) (abs : List ℕ),
      (i, abs) ∈ seedLoop outcome n is processed → j ∈ abs →
      absorbMatch (outcome i j) = true := by
  intro is
  induction is with
  | nil => intro processed i j abs h _; simp [seedLoop] at h
  | cons i' is ih =>
    intro processed i j abs h hj
    rw [seedLoop] at h
    by_cases hp : i' ∈ processed
    · rw [if_pos hp] at h
      exact ih processed i j abs h hj
    · rw [if_neg hp] at h
      rcases List.mem_append.mp h with h1 | h1
      · by_cases hs : (absorbScan outcome i' (List.range' (i' + 1) (n - (i' + 1)))
            (i' :: processed)).1 ≠ []
        · rw [if_pos hs] at h1
          have h2 := List.mem_singleton.mp h1
          rw [Prod.mk.injEq] at h2
          obtain ⟨hi, habs⟩ := h2
          subst hi
          exact absorbScan_mem_match outcome i _ _ j (habs ▸ hj)
        · rw [if_neg hs] at h1
          simp at h1
      · exact ih _ i j abs h1 hj

/-- C3 as amended: a pair is absorbed into a duplicate group only when
either the consensus succeeded with similarity at least `0.92` AND
confidence at least `0.9`, or the consensus computation threw and the local
fallback hash similarity alone is at least `0.92` — on the fallback path no
confidence condition is checked. -/
theorem claim_C3_match_gate (images : List ImageRec)
    (outcome : ℕ → ℕ → ConsensusOutcome) (p : ℕ × ℕ)
    (h : p ∈ absorbedPairs images outcome) :
    (∃ s c, outcome p.1 p.2 = ConsensusOutcome.ok s c
        ∧ similarityThreshold ≤ s ∧ (9 : ℚ) / 10 ≤ c)
    ∨ (∃ l, outcome p.1 p.2 = ConsensusOutcome.err l
        ∧ similarityThreshold ≤ l) := by
  rcases List.mem_flatMap.mp h with ⟨c, hc, hp⟩
  rcases List.mem_map.mp hp with ⟨j, hj, rfl⟩
  have hm := seedLoop_mem_match outcome images.length _ _ c.1 j c.2
    (by simpa using hc) hj
  cases ho : outcome c.1 j with
  | ok s conf =>
    left
    rw [ho] at hm
    simp only [absorbMatch, Bool.and_eq_true, decide_eq_true_eq] at hm
    exact ⟨s, conf, rfl, hm.1, hm.2⟩
  | err l =>
    right
    rw [ho] at hm
    simp only [absorbMatch, decide_eq_true_eq] at hm
    exact ⟨l, rfl, hm⟩

theorem errOracle_match : absorbMatch (errOracle 0 1) = true := by
  simp only [errOracle, absorbMatch, similarityThreshold]
  norm_num

theorem absorbedPairs_errOracle :
    absorbedPairs [imgA, imgB] errOracle = [(0, 1)] := by
  have h2 : List.range 2 = [0, 1] := rfl
  have hr : List.range' 2 0 = [] := rfl
  simp [absorbedPairs, seedLoop, absorbScan, errOracle_match, h2, hr]

/-- C3, counterexample: it is not true that a pair is absorbed only when a
consensus similarity of at least `0.92` and a consensus confidence of at
least `0.9` exist.  Under `errOracle` every consensus computation throws
and the fallback path absorbs the pair `(0, 1)` on the strength of the
local hash similarity `0.95` alone, with no confidence at all. -/
theorem claim_C3_counterexample :
    ¬ (∀ (images : List ImageRec) (outcome : ℕ → ℕ → ConsensusOutcome)
        (p : ℕ × ℕ), p ∈ absorbedPairs images outcome →
        ∃ s c, outcome p.1 p.2 = ConsensusOutcome.ok s c
          ∧ similarityThreshold ≤ s ∧ (9 : ℚ) / 10 ≤ c) := by
  intro h
  have := h [imgA, imgB] errOracle (0, 1)
    (by rw [absorbedPairs_errOracle]; exact List.mem_singleton.mpr rfl)
  rcases this with ⟨s, c, heq, _⟩
  exact absurd heq (by simp [errOracle])

/-- C3 witness: the amended gate theorem applied to the concrete fallback
run, where the right (fallback) disjunct holds. -/
theorem claim_C3_match_gate_witness :
    (∃ s c, errOracle 0 1 = ConsensusOutcome.ok s c
        ∧ similarityThreshold ≤ s ∧ (9 : ℚ) / 10 ≤ c)
    ∨ (∃ l, errOracle 0 1 = ConsensusOutcome.err l
        ∧ similarityThreshold ≤ l) :=
  claim_C3_match_gate [imgA, imgB] errOracle (0, 1)
    (by rw [absorbedPairs_errOracle]; exact List.mem_singleton.mpr rfl)

/-! ## Bucket lemmas shared by the exact-grouping claims -/

section Buckets

variable {κ α : Type} [DecidableEq κ] (key : α → κ)

theorem bucketInsert_key_inv (bs : List (κ × List α)) (y : α)
    (h : ∀ b ∈ bs, ∀ x ∈ b.2, key x = b.1) :
    ∀ b ∈ bucketInsert key bs y, ∀ x ∈ b.2, key x = b.1 := by
  induction bs with
  | nil =>
    intro b hb x hx
    simp only [bucketInsert, List.mem_singleton] at hb
    subst hb
    simp only [List.mem_singleton] at hx
    subst hx
    rfl
  | cons kg rest ih =>
    intro b hb x hx
    obtain ⟨k, g⟩ := kg
    rw [bucketInsert] at hb
    by_cases hk : k = key y
    · rw [if_pos hk] at hb
      rcases List.mem_cons.mp hb with h1 | h1
      · subst h1
        rcases List.mem_append.mp hx with h2 | h2
        · exact h (k, g) (List.mem_cons_self _ _) x h2
        · simp only [List.mem_singleton] at h2
          subst h2
          exact hk.symm
      · exact h b (List.mem_cons_of_mem _ h1) x hx
    · rw [if_neg hk] at hb
      rcases List.mem_cons.mp hb with h1 | h1
      · subst h1
        exact h (k, g) (List.mem_cons_self _ _) x hx
      · exact ih (fun b hb => h b (List.mem_cons_of_mem _ hb)) b h1 x hx

theorem bucketInsert_mem_elem (bs : List (κ × List α)) (y : α) :
    ∀ b ∈ bucketInsert key bs y, ∀ x ∈ b.2,
      (∃ b0 ∈ bs, x ∈ b0.2) ∨ x = y := by
  induction bs with
  | nil =>
    intro b hb x hx
    simp only [bucketInsert, List.mem_singleton] at hb
    subst hb
    simp only [List.mem_singleton] at hx
    exact Or.inr hx
  | cons kg rest ih =>
    intro b hb x hx
    obtain ⟨k, g⟩ := kg
    rw [bucketInsert] at hb
    by_cases hk : k = key y
    · rw [if_pos hk] at hb
      rcases List.mem_cons.mp hb with h1 | h1
      · subst h1
        rcases List.mem_append.mp hx with h2 | h2
        · exact Or.inl ⟨(k, g), List.mem_cons_self _ _, h2⟩
        · simp only [List.mem_singleton] at h2
          exact Or.inr h2
      · exact Or.inl ⟨b, List.mem_cons_of_mem _ h1, hx⟩
    · rw [if_neg hk] at hb
      rcases List.mem_cons.mp hb with h1 | h1
      · subst h1
        exact Or.inl ⟨(k, g), List.mem_cons_self _ _, hx⟩
      · rcases ih b h1 x hx with h2 | h2
        · exact Or.inl ⟨h2.choose, List.mem_cons_of_mem _ h2.choose_spec.1,
            h2.choose_spec.2⟩
        · exact Or.inr h2

theorem bucketInsert_nonempty (bs : List (κ × List α)) (y : α)
    (h : ∀ b ∈ bs, b.2 ≠ []) :
    ∀ b ∈ bucketInsert key bs y, b.2 ≠ [] := by
  induction bs with
  | nil =>
    intro b hb
    simp only [bucketInsert, List.mem_singleton] at hb
    subst hb
    simp
  | cons kg rest ih =>
    intro b hb
    obtain ⟨k, g⟩ := kg
    rw [bucketInsert] at hb
    by_cases hk : k = key y
    · rw [if_pos hk] at hb
      rcases List.mem_cons.mp hb with h1 | h1
      · subst h1; simp
      · exact h b (List.mem_cons_of_mem _ h1)
    · rw [if_neg hk] at hb
      rcases List.mem_cons.mp hb with h1 | h1
      · subst h1
        exact h (k, g) (List.mem_cons_self _ _)
      · exact ih (fun b hb => h b (List.mem_cons_of_mem _ hb)) b h1

theorem bucketInsert_keys (bs : List (κ × List α)) (y : α) :
    (bucketInsert key bs y).map Prod.fst
      = if key y ∈ bs.map Prod.fst then bs.map Prod.fst
        else bs.map Prod.fst ++ [key y] := by
  induction bs with
  | nil => simp [bucketInsert]
  | cons kg rest ih =>
    obtain ⟨k, g⟩ := kg
    rw [bucketInsert]
    by_cases hk : k = key y
    · rw [if_pos hk]
      simp [hk]
    · rw [if_neg hk]
      by_cases hm : key y ∈ rest.map Prod.fst
      · simp only [List.map_cons, ih, if_pos hm]
        rw [if_pos]
        simp [hm]
      · simp only [List.map_cons, ih, if_neg hm]
        rw [if_neg]
        · simp
        · simp only [List.mem_cons]
          rintro (h1 | h1)
          · exact hk h1.symm
          · exact hm h1

theorem bucketInsert_keys_nodup (bs : List (κ × List α)) (y : α)
    (h : (bs.map Prod.fst).Nodup) :
    ((bucketInsert key bs y).map Prod.fst).Nodup := by
  rw [bucketInsert_keys]
  by_cases hm : key y ∈ bs.map Prod.fst
  · rwa [if_pos hm]
  · rw [if_neg hm]
    simp [List.nodup_append, h, hm]

theorem bucketInsert_lands (bs : List (κ × List α)) (y : α) :
    ∃ b ∈ bucketInsert key bs y, b.1 = key y ∧ y ∈ b.2 := by
  induction bs with
  | nil => exact ⟨(key y, [y]), by simp [bucketInsert]⟩
  | cons kg rest ih =>
    obtain ⟨k, g⟩ := kg
    rw [bucketInsert]
    by_cases hk : k = key y
    · rw [if_pos hk]
      exact ⟨(k, g ++ [y]), List.mem_cons_self _ _, hk, by simp⟩
    · rw [if_neg hk]
      obtain ⟨b, hb, hbk, hby⟩ := ih
      exact ⟨b, List.mem_cons_of_mem _ hb, hbk, hby⟩

theorem bucketInsert_mono (bs : List (κ × List α)) (y : α) (b : κ × List α)
    (hb : b ∈ bs) :
    ∃ b' ∈ bucketInsert key bs y, b'.1 = b.1 ∧ ∀ x ∈ b.2, x ∈ b'.2 := by
  induction bs with
  | nil => simp at hb
  | cons kg rest ih =>
    obtain ⟨k, g⟩ := kg
    rw [bucketInsert]
    by_cases hk : k = key y
    · rw [if_pos hk]
      rcases List.mem_cons.mp hb with h1 | h1
      · subst h1
        exact ⟨(k, g ++ [y]), List.mem_cons_self _ _, rfl,
          fun x hx => List.mem_append_left _ hx⟩
      · exact ⟨b, List.mem_cons_of_mem _ h1, rfl, fun x hx => hx⟩
    · rw [if_neg hk]
      rcases List.mem_cons.mp hb with h1 | h1
      · subst h1
        exact ⟨(k, g), List.mem_cons_self _ _, rfl, fun x hx => hx⟩
      · obtain ⟨b', hb', hbk, hbs⟩ := ih h1
        exact ⟨b', List.mem_cons_of_mem _ hb', hbk, hbs⟩

theorem bucketFold_mono (xs : List α) :
    ∀ (bs : List (κ × List α)) (b : κ × List α), b ∈ bs →
      ∃ b' ∈ xs.foldl (bucketInsert key) bs, b'.1 = b.1 ∧ ∀ x ∈ b.2, x ∈ b'.2 := by
  induction xs with
  | nil => intro bs b hb; exact ⟨b, hb, rfl, fun x hx => hx⟩
  | cons y ys ih =>
    intro bs b hb
    obtain ⟨b', hb', hbk, hbs⟩ := bucketInsert_mono key bs y b hb
    obtain ⟨b'', hb'', hbk', hbs'⟩ := ih (bucketInsert key bs y) b' hb'
    exact ⟨b'', by simpa using hb'', hbk'.trans hbk,
      fun x hx => hbs' x (hbs x hx)⟩

theorem groupByKey_lands (xs : List α) (x : α) (hx : x ∈ xs) :
    ∃ b ∈ groupByKey key xs, b.1 = key x ∧ x ∈ b.2 := by
  rw [groupByKey]
  suffices h : ∀ (ys : List α) (bs : List (κ × List α)), x ∈ ys →
      ∃ b ∈ ys.foldl (bucketInsert key) bs, b.1 = key x ∧ x ∈ b.2 from
    h xs [] hx
  intro ys
  induction ys with
  | nil => intro bs h; simp at h
  | cons y ys ih =>
    intro bs h
    rcases List.mem_cons.mp h with h1 | h1
    · subst h1
      obtain ⟨b, hb, hbk, hbx⟩ := bucketInsert_lands key bs x
      obtain ⟨b', hb', hbk', hbs⟩ := bucketFold_mono key ys _ b hb
      exact ⟨b', by simpa using hb', hbk'.trans hbk, hbs x hbx⟩
    · exact ih (bucketInsert key bs y) h1

theorem groupByKey_key_inv (xs : List α) :
    ∀ b ∈ groupByKey key xs, ∀ x ∈ b.2, key x = b.1 := by
  rw [groupByKey]
  suffices h : ∀ (ys : List α) (bs : List (κ × List α)),
      (∀ b ∈ bs, ∀ x ∈ b.2, key x = b.1) →
      ∀ b ∈ ys.foldl (bucketInsert key) bs, ∀ x ∈ b.2, key x = b.1 from
    h xs [] (by simp)
  intro ys
  induction ys with
  | nil => intro bs h; exact h
  | cons y ys ih =>
    intro bs h
    exact ih _ (bucketInsert_key_inv key bs y h)

theorem bucketFold_elem_pred (p : α → Prop) :
    ∀ (ys : List α) (bs : List (κ × List α)),
      (∀ b ∈ bs, ∀ x ∈ b.2, p x) → (∀ y ∈ ys, p y) →
      ∀ b ∈ ys.foldl (bucketInsert key) bs, ∀ x ∈ b.2, p x := by
  intro ys
  induction ys with
  | nil => intro bs h _; exact h
  | cons y ys ih =>
    intro bs h hy
    refine ih _ ?_ (fun z hz => hy z (List.mem_cons_of_mem _ hz))
    intro b hb x hx
    rcases bucketInsert_mem_elem key bs y b hb x hx with h1 | h1
    · exact h h1.choose h1.choose_spec.1 x h1.choose_spec.2
    · exact h1 ▸ hy y (List.mem_cons_self _ _)

theorem groupByKey_elem (xs : List α) :
    ∀ b ∈ groupByKey key xs, ∀ x ∈ b.2, x ∈ xs := by
  rw [groupByKey]
  exact bucketFold_elem_pred key (fun x => x ∈ xs) xs [] (by simp)
    (fun y hy => hy)

theorem groupByKey_nodup_keys (xs : List α) :
    ((groupByKey key xs).map Prod.fst).Nodup := by
  rw [groupByKey]
  suffices h : ∀ (ys : List α) (bs : List (κ × List α)),
      (bs.map Prod.fst).Nodup →
      ((ys.foldl (bucketInsert key) bs).map Prod.fst).Nodup from
    h xs [] (by simp)
  intro ys
  induction ys with
  | nil => intro bs h; exact h
  | cons y ys ih =>
    intro bs h
    exact ih _ (bucketInsert_keys_nodup key bs y h)

theorem groupByKey_nonempty (xs : List α) :
    ∀ b ∈ groupByKey key xs, b.2 ≠ [] := by
  rw [groupByKey]
  suffices h : ∀ (ys : List α) (bs : List (κ × List α)),
      (∀ b ∈ bs, b.2 ≠ []) →
      ∀ b ∈ ys.foldl (bucketInsert key) bs, b.2 ≠ [] from
    h xs [] (by simp)
  intro ys
  induction ys with
  | nil => intro bs h; exact h
  | cons y ys ih =>
    intro bs h
    exact ih _ (bucketInsert_nonempty key bs y h)

end Buckets

theorem nodup_fst_unique {κ α : Type} {l : List (κ × List α)} (h : (l.map Prod.fst).Nodup)
    {b1 b2 : κ × List α} (h1 : b1 ∈ l) (h2 : b2 ∈ l) (hk : b1.1 = b2.1) :
    b1 = b2 := by
  induction l with
  | nil => simp at h1
  | cons c cs ih =>
    simp only [List.map_cons, List.nodup_cons] at h
    rcases List.mem_cons.mp h1 with e1 | e1 <;>
      rcases List.mem_cons.mp h2 with e2 | e2
    · exact e1.trans e2.symm
    · subst e1
      exact absurd (hk ▸ List.mem_map_of_mem Prod.fst e2) h.1
    · subst e2
      exact absurd (hk ▸ List.mem_map_of_mem Prod.fst e1) h.1
    · exact ih h.2 e1 e2

theorem two_mem_one_lt_length {α : Type} {l : List α} {a b : α}
    (ha : a ∈ l) (hb : b ∈ l) (hne : a ≠ b) : 1 < l.length := by
  obtain ⟨l1, l2, rfl⟩ := List.append_of_mem ha
  rcases List.mem_append.mp hb with h1 | h1
  · have := List.length_pos.mpr (List.ne_nil_of_mem h1)
    simp only [List.length_append, List.length_cons]
    omega
  · rcases List.mem_cons.mp h1 with h2 | h2
    · exact absurd h2.symm hne
    · have := List.length_pos.mpr (List.ne_nil_of_mem h2)
      simp only [List.length_append, List.length_cons]
      omega

/-! ## Claim C7: exact-duplicate grouping keys -/

/-- C7 as amended: the simplified detector keys exact grouping by the
(byte size, content digest) pair — so two byte-identical files at distinct
paths always end up in one `exact` group with similarity `1.0` and
confidence `absolute`, and files of different byte sizes never share a
bucket — while the enterprise entry point keys by the digest string alone,
so equal digest strings share a bucket regardless of byte size. -/
theorem claim_C7_grouping_keys :
    (∀ (digest : String → String) (files : List ScannedFile)
        (f1 f2 : ScannedFile), f1 ∈ files → f2 ∈ files →
      f1.content = f2.content → f1.path ≠ f2.path →
      ∃ g ∈ exactGroupsSimplified digest files,
        g.similarity = 1 ∧ g.confidence = "absolute"
          ∧ f1 ∈ g.images ∧ f2 ∈ g.images)
    ∧ (∀ (digest : String → String) (files : List ScannedFile)
        (f1 f2 : ScannedFile) (b : (ℕ × String) × List ScannedFile),
      f1.content.length ≠ f2.content.length →
      b ∈ groupByHashSimplified digest files → f1 ∈ b.2 → f2 ∉ b.2)
    ∧ (∀ (images : List ImageRec) (x y : ImageRec), x ∈ images → y ∈ images →
      x.hash = y.hash → ∃ b ∈ groupByHash images, x ∈ b.2 ∧ y ∈ b.2) := by
  refine ⟨?_, ?_, ?_⟩
  · intro digest files f1 f2 h1 h2 hc hp
    obtain ⟨b1, hb1, hk1, hm1⟩ :=
      groupByKey_lands (simplifiedKey digest) files f1 h1
    obtain ⟨b2, hb2, hk2, hm2⟩ :=
      groupByKey_lands (simplifiedKey digest) files f2 h2
    have hkey : simplifiedKey digest f1 = simplifiedKey digest f2 := by
      simp [simplifiedKey, hc]
    have hb12 : b1 = b2 :=
      nodup_fst_unique (groupByKey_nodup_keys (simplifiedKey digest) files)
        hb1 hb2 (by rw [hk1, hk2, hkey])
    subst hb12
    have hne : f1 ≠ f2 := fun h => hp (congrArg ScannedFile.path h)
    have hlen : 1 < b1.2.length := two_mem_one_lt_length hm1 hm2 hne
    refine ⟨{ gtype := "exact", images := b1.2, similarity := 1,
              confidence := "absolute" }, ?_, rfl, rfl, hm1, hm2⟩
    refine List.mem_filterMap.mpr ⟨b1, hb1, ?_⟩
    rw [if_pos hlen]
  · intro digest files f1 f2 b hlen hb hm1 hm2
    have hk1 := groupByKey_key_inv (simplifiedKey digest) files b hb f1 hm1
    have hk2 := groupByKey_key_inv (simplifiedKey digest) files b hb f2 hm2
    rw [← hk2] at hk1
    exact hlen (congrArg Prod.fst hk1)
  · intro images x y hx hy hh
    obtain ⟨b1, hb1, hk1, hm1⟩ := groupByKey_lands (fun i => i.hash) images x hx
    obtain ⟨b2, hb2, hk2, hm2⟩ := groupByKey_lands (fun i => i.hash) images y hy
    have hb12 : b1 = b2 :=
      nodup_fst_unique (groupByKey_nodup_keys (fun i => i.hash) images)
        hb1 hb2 (by rw [hk1, hk2, hh])
    subst hb12
    exact ⟨b1, hb1, hm1, hm2⟩

/-- C7 witness: the amended theorem applied to two byte-identical one-byte
files at distinct paths and to two equal-hash image records. -/
theorem claim_C7_grouping_keys_witness :
    (∃ g ∈ exactGroupsSimplified (fun _ => "d")
        [⟨"p1", "c"⟩, ⟨"p2", "c"⟩],
      g.similarity = 1 ∧ g.confidence = "absolute"
        ∧ (⟨"p1", "c"⟩ : ScannedFile) ∈ g.images
        ∧ (⟨"p2", "c"⟩ : ScannedFile) ∈ g.images)
    ∧ ∃ b ∈ groupByHash [imgSize1, imgSize2],
        imgSize1 ∈ b.2 ∧ imgSize2 ∈ b.2 :=
  ⟨claim_C7_grouping_keys.1 (fun _ => "d") [⟨"p1", "c"⟩, ⟨"p2", "c"⟩]
      ⟨"p1", "c"⟩ ⟨"p2", "c"⟩ (by simp) (by simp) rfl (by simp),
   claim_C7_grouping_keys.2.2 [imgSize1, imgSize2] imgSize1 imgSize2
      (by simp) (by simp) rfl⟩

theorem toLowerStr_png : toLowerStr "png" = "png" := by decide

theorem pathDepth_a : pathDepth "a" = 1 := by decide

theorem pathDepth_b : pathDepth "b" = 1 := by decide

theorem qualityScore_le_one_two :
    calculateQualityScore 0
        { path := "a", size := 1, modified := 0, resolution := 0,
          format := "png", hash := "h", recommended := false,
          qualityScore := 0 }
      ≤ calculateQualityScore 0
        { path := "b", size := 2, modified := 0, resolution := 0,
          format := "png", hash := "h", recommended := false,
          qualityScore := 0 } := by
  simp only [calculateQualityScore, rawQualityScore,
    toLowerStr_png, pathDepth_a, pathDepth_b, formatScore]
  norm_num [min_def, max_def]

/-- C7, counterexample: the enterprise entry point groups by digest string
alone.  Two records with equal digest `"h"` but different byte sizes (1 and
2) are emitted in one `exact` group, contradicting the claim that files of
different byte sizes are never placed in the same exact group. -/
theorem claim_C7_counterexample :
    ((detectDuplicates 0 [imgSize1, imgSize2] errOracle).map fun g =>
        (g.gtype, g.images.map fun i => (i.path, i.size)))
      = [("exact", [("b", 2), ("a", 1)])]
    ∧ imgSize1.hash = imgSize2.hash
    ∧ imgSize1.size ≠ imgSize2.size := by
  refine ⟨?_, rfl, by norm_num [imgSize1, imgSize2]⟩
  have hgb : groupByHash [imgSize1, imgSize2] = [("h", [imgSize1, imgSize2])] := by
    simp [groupByHash, groupByKey, bucketInsert, imgSize1, imgSize2]
  have hex : exactGroups [imgSize1, imgSize2]
      = [{ gtype := "exact", images := [imgSize1, imgSize2], similarity := 1,
           confidence := "absolute", detectionMethod := "file-hash",
           safetyVerified := false }] := by
    simp [exactGroups, hgb]
  have huniq : uniqueImages [imgSize1, imgSize2] = [] := by
    simp [uniqueImages, hgb]
  have hrank : rankImagesWithML 0 (exactGroups [imgSize1, imgSize2])
      = [{ gtype := "exact",
           images := [{ imgSize2 with
                recommended := true,
                qualityScore := calculateQualityScore 0 imgSize2 },
              { imgSize1 with qualityScore := calculateQualityScore 0 imgSize1 }],
           similarity := 1, confidence := "absolute",
           detectionMethod := "file-hash", safetyVerified := false }] := by
    rw [hex]
    simp only [rankImagesWithML, rankGroup, List.map_cons, List.map_nil,
      sortDescBy, insertDescBy]
    rw [if_pos]
    exact qualityScore_le_one_two
  simp only [detectDuplicates, huniq, List.length_nil]
  rw [if_neg (by norm_num), List.append_nil, hrank]
  simp [verifySafetyBeforeReturn, verifyGroup, imgSize1, imgSize2]

/-! ## Claim C2: pre-deletion backup integrity -/

theorem backup_error_of_mismatch (fs : Fs) (copyDigest : String → String) :
    ∀ paths : List String,
      (∃ p ∈ paths, ∃ d, fs p = some d ∧ copyDigest p ≠ d) →
      ∃ e, createPreDeletionBackup fs copyDigest paths = Except.error e := by
  intro paths
  induction paths with
  | nil => rintro ⟨p, hp, _⟩; simp at hp
  | cons q rest ih =>
    rintro ⟨p, hp, d, hd, hcd⟩
    rw [createPreDeletionBackup]
    cases hq : fs q with
    | none =>
      dsimp only
      rcases List.mem_cons.mp hp with h1 | h1
      · subst h1; rw [hq] at hd; exact absurd hd (by simp)
      · exact ih ⟨p, h1, d, hd, hcd⟩
    | some dq =>
      dsimp only
      by_cases hmq : copyDigest q = dq
      · rw [if_pos hmq]
        have hrest : ∃ p ∈ rest, ∃ d, fs p = some d ∧ copyDigest p ≠ d := by
          rcases List.mem_cons.mp hp with h1 | h1
          · subst h1
            rw [hq] at hd
            exact absurd hmq (by rw [Option.some_inj.mp hd]; exact hcd)
          · exact ⟨p, h1, d, hd, hcd⟩
        obtain ⟨e, he⟩ := ih hrest
        rw [he]
        exact ⟨e, rfl⟩
      · rw [if_neg hmq]
        exact ⟨_, rfl⟩

theorem backup_ok_entries (fs : Fs) (copyDigest : String → String) :
    ∀ (paths : List String) (entries : List BackupEntry),
      createPreDeletionBackup fs copyDigest paths = Except.ok entries →
      ∀ ent ∈ entries, ent.verified = true
        ∧ copyDigest ent.originalPath = ent.hash
        ∧ fs ent.originalPath = some ent.hash := by
  intro paths
  induction paths with
  | nil =>
    intro entries h ent hent
    rw [createPreDeletionBackup] at h
    obtain rfl := (Except.ok.injEq _ _).mp h.symm
    simp at hent
  | cons q rest ih =>
    intro entries h ent hent
    rw [createPreDeletionBackup] at h
    cases hq : fs q with
    | none =>
      rw [hq] at h
      exact ih entries h ent hent
    | some dq =>
      rw [hq] at h
      dsimp only at h
      by_cases hmq : copyDigest q = dq
      · rw [if_pos hmq] at h
        cases hrest : createPreDeletionBackup fs copyDigest rest with
        | ok es =>
          rw [hrest] at h
          obtain rfl := (Except.ok.injEq _ _).mp h.symm
          rcases List.mem_cons.mp hent with h1 | h1
          · subst h1
            exact ⟨rfl, hmq, hq⟩
          · exact ih es hrest ent h1
        | error e =>
          rw [hrest] at h
          exact absurd h (by simp)
      · rw [if_neg hmq] at h
        exact absurd h (by simp)

/-- C2: if any file in the batch would produce a backup copy whose digest
differs from the source digest, `createPreDeletionBackup` throws (first
conjunct), the whole `delete-files` handler therefore throws before
`deleteFiles` ever runs, for every behaviour of the trash and audit-log
collaborators (second conjunct), and the backup never returns a manifest at all in that
situation — in particular no verified entry for the corrupted file (third
conjunct).  On any successful run, every manifest entry is verified and its
recorded digest matches both the source and the copy (fourth conjunct). -/
theorem claim_C2_backup_integrity (fs : Fs) (copyDigest : String → String)
    (paths : List String)
    (hm : ∃ p ∈ paths, ∃ d, fs p = some d ∧ copyDigest p ≠ d) :
    (∃ e, createPreDeletionBackup fs copyDigest paths = Except.error e)
    ∧ (∀ trash logDel, ∃ e,
        deleteFilesHandler fs copyDigest trash logDel paths = Except.error e)
    ∧ (∀ entries, createPreDeletionBackup fs copyDigest paths
        ≠ Except.ok entries)
    ∧ (∀ (fs' : Fs) (copyDigest' : String → String) (paths' : List String)
        (entries : List BackupEntry),
      createPreDeletionBackup fs' copyDigest' paths' = Except.ok entries →
      ∀ ent ∈ entries, ent.verified = true
        ∧ copyDigest' ent.originalPath = ent.hash
        ∧ fs' ent.originalPath = some ent.hash) := by
  obtain ⟨e, he⟩ := backup_error_of_mismatch fs copyDigest paths hm
  refine ⟨⟨e, he⟩, ?_, ?_, ?_⟩
  · intro trash logDel
    refine ⟨e, ?_⟩
    rw [deleteFilesHandler, he]
  · intro entries h
    rw [he] at h
    exact absurd h (by simp)
  · exact fun fs' cd' paths' => backup_ok_entries fs' cd' paths'

/-- C2 witness: a one-file batch whose copy digest is corrupted; the backup
and the handler both throw. -/
theorem claim_C2_backup_integrity_witness :
    (∃ e, createPreDeletionBackup
      (fun p => if p = "x" then some "d1" else none) (fun _ => "BAD") ["x"]
      = Except.error e)
    ∧ ∀ trash logDel, ∃ e, deleteFilesHandler
      (fun p => if p = "x" then some "d1" else none) (fun _ => "BAD")
      trash logDel ["x"]
      = Except.error e :=
  let h := claim_C2_backup_integrity
    (fun p => if p = "x" then some "d1" else none) (fun _ => "BAD") ["x"]
    ⟨"x", by simp, "d1", by simp, by simp⟩
  ⟨h.1, h.2.1⟩

/-! ## Claim C10: deletion result partition -/

theorem deleteStep_none (trash logDel : String → Except String Unit)
    (st : List String × List (String × String) × Fs) (p q : String)
    (h : st.2.2 q = none) : (deleteStep trash logDel st p).2.2 q = none := by
  rw [deleteStep]
  by_cases hex : (st.2.2 p).isSome
  · rw [if_pos hex]
    cases trash p with
    | ok u =>
      cases logDel p with
      | ok v =>
        dsimp only
        by_cases hq : q = p <;> simp [hq, h]
      | error e =>
        dsimp only
        by_cases hq : q = p <;> simp [hq, h]
    | error e => exact h
  · rw [if_neg hex]
    exact h

theorem deleteFold_none (trash logDel : String → Except String Unit) :
    ∀ (paths : List String) (st : List String × List (String × String) × Fs)
      (q : String), st.2.2 q = none →
      (paths.foldl (deleteStep trash logDel) st).2.2 q = none := by
  intro paths
  induction paths with
  | nil => intro st q h; exact h
  | cons p ps ih =>
    intro st q h
    rw [List.foldl_cons]
    exact ih _ q (deleteStep_none trash logDel st p q h)

theorem deleteStep_failed_mono (trash logDel : String → Except String Unit)
    (st : List String × List (String × String) × Fs) (p : String)
    (x : String × String) (h : x ∈ st.2.1) :
    x ∈ (deleteStep trash logDel st p).2.1 := by
  rw [deleteStep]
  by_cases hex : (st.2.2 p).isSome
  · rw [if_pos hex]
    cases trash p with
    | ok u =>
      cases logDel p with
      | ok v => exact h
      | error e => exact List.mem_append_left _ h
    | error e => exact List.mem_append_left _ h
  · rw [if_neg hex]
    exact List.mem_append_left _ h

theorem deleteFold_failed_mono (trash logDel : String → Except String Unit) :
    ∀ (paths : List String) (st : List String × List (String × String) × Fs)
      (x : String × String), x ∈ st.2.1 →
      x ∈ (paths.foldl (deleteStep trash logDel) st).2.1 := by
  intro paths
  induction paths with
  | nil => intro st x h; exact h
  | cons p ps ih =>
    intro st x h
    rw [List.foldl_cons]
    exact ih _ x (deleteStep_failed_mono trash logDel st p x h)

theorem deleteStep_deleted_mono (trash logDel : String → Except String Unit)
    (st : List String × List (String × String) × Fs) (p : String)
    (x : String) (h : x ∈ st.1) :
    x ∈ (deleteStep trash logDel st p).1 := by
  rw [deleteStep]
  by_cases hex : (st.2.2 p).isSome
  · rw [if_pos hex]
    cases trash p with
    | ok u =>
      cases logDel p with
      | ok v => exact List.mem_append_left _ h
      | error e => exact List.mem_append_left _ h
    | error e => exact h
  · rw [if_neg hex]
    exact h

theorem deleteFold_deleted_mono (trash logDel : String → Except String Unit) :
    ∀ (paths : List String) (st : List String × List (String × String) × Fs)
      (x : String), x ∈ st.1 →
      x ∈ (paths.foldl (deleteStep trash logDel) st).1 := by
  intro paths
  induction paths with
  | nil => intro st x h; exact h
  | cons p ps ih =>
    intro st x h
    rw [List.foldl_cons]
    exact ih _ x (deleteStep_deleted_mono trash logDel st p x h)

theorem deleteFold_notfound (trash logDel : String → Except String Unit) :
    ∀ (paths : List String) (st : List String × List (String × String) × Fs)
      (p : String), p ∈ paths → st.2.2 p = none →
      (p, "File not found") ∈ (paths.foldl (deleteStep trash logDel) st).2.1 := by
  intro paths
  induction paths with
  | nil => intro st p h; simp at h
  | cons q ps ih =>
    intro st p hp hn
    rw [List.foldl_cons]
    rcases List.mem_cons.mp hp with h1 | h1
    · subst h1
      refine deleteFold_failed_mono trash logDel ps _ _ ?_
      rw [deleteStep]
      rw [if_neg (by simp [hn])]
      exact List.mem_append_right _ (List.mem_singleton.mpr rfl)
    · exact ih _ p h1 (deleteStep_none trash logDel st q p hn)

theorem deleteFold_mem (trash logDel : String → Except String Unit) :
    ∀ (paths : List String) (st : List String × List (String × String) × Fs)
      (p : String), p ∈ paths →
      p ∈ (paths.foldl (deleteStep trash logDel) st).1
      ∨ p ∈ (paths.foldl (deleteStep trash logDel) st).2.1.map Prod.fst := by
  intro paths
  induction paths with
  | nil => intro st p h; simp at h
  | cons q ps ih =>
    intro st p hp
    rw [List.foldl_cons]
    rcases List.mem_cons.mp hp with h1 | h1
    · subst h1
      rw [deleteStep]
      by_cases hex : (st.2.2 p).isSome
      · rw [if_pos hex]
        cases trash p with
        | ok u =>
          cases logDel p with
          | ok v =>
            left
            exact deleteFold_deleted_mono trash logDel ps _ p
              (List.mem_append_right _ (List.mem_singleton.mpr rfl))
          | error e =>
            left
            exact deleteFold_deleted_mono trash logDel ps _ p
              (List.mem_append_right _ (List.mem_singleton.mpr rfl))
        | error e =>
          right
          refine List.mem_map.mpr ⟨(p, e), ?_, rfl⟩
          exact deleteFold_failed_mono trash logDel ps _ _
            (List.mem_append_right _ (List.mem_singleton.mpr rfl))
      · rw [if_neg hex]
        right
        refine List.mem_map.mpr ⟨(p, "File not found"), ?_, rfl⟩
        exact deleteFold_failed_mono trash logDel ps _ _
          (List.mem_append_right _ (List.mem_singleton.mpr rfl))
    · exact ih _ p h1

theorem deleteStep_deleted_src (trash logDel : String → Except String Unit)
    (st : List String × List (String × String) × Fs) (p : String)
    (q : String) (h : q ∈ (deleteStep trash logDel st p).1) :
    q ∈ st.1 ∨ q = p := by
  rw [deleteStep] at h
  by_cases hex : (st.2.2 p).isSome
  · rw [if_pos hex] at h
    cases htr : trash p with
    | ok u =>
      rw [htr] at h
      cases hl : logDel p with
      | ok v =>
        rw [hl] at h
        rcases List.mem_append.mp h with h1 | h1
        · exact Or.inl h1
        · exact Or.inr (List.mem_singleton.mp h1)
      | error e =>
        rw [hl] at h
        rcases List.mem_append.mp h with h1 | h1
        · exact Or.inl h1
        · exact Or.inr (List.mem_singleton.mp h1)
    | error e =>
      rw [htr] at h
      exact Or.inl h
  · rw [if_neg hex] at h
    exact Or.inl h

theorem deleteStep_failed_src (trash logDel : String → Except String Unit)
    (st : List String × List (String × String) × Fs) (p : String)
    (q r : String) (h : (q, r) ∈ (deleteStep trash logDel st p).2.1) :
    (q, r) ∈ st.2.1 ∨ q = p := by
  rw [deleteStep] at h
  by_cases hex : (st.2.2 p).isSome
  · rw [if_pos hex] at h
    cases htr : trash p with
    | ok u =>
      rw [htr] at h
      cases hl : logDel p with
      | ok v =>
        rw [hl] at h
        exact Or.inl h
      | error e =>
        rw [hl] at h
        rcases List.mem_append.mp h with h1 | h1
        · exact Or.inl h1
        · have h2 := List.mem_singleton.mp h1
          exact Or.inr (congrArg Prod.fst h2)
    | error e =>
      rw [htr] at h
      rcases List.mem_append.mp h with h1 | h1
      · exact Or.inl h1
      · have h2 := List.mem_singleton.mp h1
        exact Or.inr (congrArg Prod.fst h2)
  · rw [if_neg hex] at h
    rcases List.mem_append.mp h with h1 | h1
    · exact Or.inl h1
    · have h2 := List.mem_singleton.mp h1
      exact Or.inr (congrArg Prod.fst h2)

theorem deleteFold_deleted_src (trash logDel : String → Except String Unit) :
    ∀ (paths : List String) (st : List String × List (String × String) × Fs)
      (q : String), q ∈ (paths.foldl (deleteStep trash logDel) st).1 →
      q ∈ st.1 ∨ q ∈ paths := by
  intro paths
  induction paths with
  | nil => intro st q h; exact Or.inl h
  | cons p ps ih =>
    intro st q h
    rw [List.foldl_cons] at h
    rcases ih _ q h with h1 | h1
    · rcases deleteStep_deleted_src trash logDel st p q h1 with h2 | h2
      · exact Or.inl h2
      · exact Or.inr (h2 ▸ List.mem_cons_self _ _)
    · exact Or.inr (List.mem_cons_of_mem _ h1)

theorem deleteFold_failed_src (trash logDel : String → Except String Unit) :
    ∀ (paths : List String) (st : List String × List (String × String) × Fs)
      (q r : String), (q, r) ∈ (paths.foldl (deleteStep trash logDel) st).2.1 →
      (q, r) ∈ st.2.1 ∨ q ∈ paths := by
  intro paths
  induction paths with
  | nil => intro st q r h; exact Or.inl h
  | cons p ps ih =>
    intro st q r h
    rw [List.foldl_cons] at h
    rcases ih _ q r h with h1 | h1
    · rcases deleteStep_failed_src trash logDel st p q r h1 with h2 | h2
      · exact Or.inl h2
      · exact Or.inr (h2 ▸ List.mem_cons_self _ _)
    · exact Or.inr (List.mem_cons_of_mem _ h1)

theorem deleteStep_perm (trash logDel : String → Except String Unit)
    (st : List String × List (String × String) × Fs) (p : String)
    (hl : logDel p = Except.ok ()) :
    List.Perm
      ((deleteStep trash logDel st p).1
        ++ (deleteStep trash logDel st p).2.1.map Prod.fst)
      ((st.1 ++ st.2.1.map Prod.fst) ++ [p]) := by
  rw [deleteStep]
  by_cases hex : (st.2.2 p).isSome
  · rw [if_pos hex]
    cases trash p with
    | ok u =>
      rw [hl]
      dsimp only
      rw [List.append_assoc, List.append_assoc]
      exact List.Perm.append_left st.1 List.perm_append_comm
    | error e =>
      dsimp only
      rw [List.map_append, ← List.append_assoc]
      rfl
  · rw [if_neg hex]
    dsimp only
    rw [List.map_append, ← List.append_assoc]
    rfl

theorem deleteFold_perm (trash logDel : String → Except String Unit) :
    ∀ (paths : List String) (st : List String × List (String × String) × Fs),
      (∀ p ∈ paths, logDel p = Except.ok ()) →
      List.Perm
        ((paths.foldl (deleteStep trash logDel) st).1
          ++ (paths.foldl (deleteStep trash logDel) st).2.1.map Prod.fst)
        ((st.1 ++ st.2.1.map Prod.fst) ++ paths) := by
  intro paths
  induction paths with
  | nil => intro st _; simp
  | cons p ps ih =>
    intro st hlog
    rw [List.foldl_cons]
    have h1 := ih (deleteStep trash logDel st p)
      (fun q hq => hlog q (List.mem_cons_of_mem _ hq))
    have h2 := List.Perm.append_right ps
      (deleteStep_perm trash logDel st p (hlog p (List.mem_cons_self _ _)))
    have h3 : ((st.1 ++ st.2.1.map Prod.fst) ++ [p]) ++ ps
        = (st.1 ++ st.2.1.map Prod.fst) ++ (p :: ps) := by
      rw [List.append_assoc]; rfl
    exact h1.trans (h3 ▸ h2)

/-- C10 as amended: `deleteFiles` reports `total` equal to the input length
and never throws — per-file trash or audit-log errors are recorded and never
abort the remaining batch.  Every input path lands in `deleted` or `failed`
(and reported paths come only from the input), and a path missing from the
filesystem is reported failed with reason `File not found`.  The
exactly-one partition, however, only holds when the audit-log append
succeeds for the batch: then `deleted.length + failed.length` equals the
input length and (for duplicate-free input) no path is in both lists.  When
the log append throws after a successful trash, the source pushes the
already-deleted path into `failed` as well. -/
theorem claim_C10_deleteFiles_partition (fs : Fs)
    (trash logDel : String → Except String Unit) (paths : List String) :
    ((deleteFiles fs trash logDel paths).1.total = paths.length)
    ∧ (∀ p ∈ paths, p ∈ (deleteFiles fs trash logDel paths).1.deleted
        ∨ p ∈ (deleteFiles fs trash logDel paths).1.failed.map Prod.fst)
    ∧ (∀ p, (p ∈ (deleteFiles fs trash logDel paths).1.deleted
        ∨ p ∈ (deleteFiles fs trash logDel paths).1.failed.map Prod.fst) →
        p ∈ paths)
    ∧ (∀ p ∈ paths, fs p = none →
        (p, "File not found") ∈ (deleteFiles fs trash logDel paths).1.failed)
    ∧ ((∀ p ∈ paths, logDel p = Except.ok ()) →
        (deleteFiles fs trash logDel paths).1.deleted.length
          + (deleteFiles fs trash logDel paths).1.failed.length = paths.length
        ∧ (paths.Nodup → ∀ p,
            ¬ (p ∈ (deleteFiles fs trash logDel paths).1.deleted
              ∧ p ∈ (deleteFiles fs trash logDel paths).1.failed.map Prod.fst))) := by
  refine ⟨rfl, ?_, ?_, ?_, ?_⟩
  · intro p hp
    have := deleteFold_mem trash logDel paths ([], [], fs) p hp
    simpa [deleteFiles] using this
  · intro p hp
    rcases hp with h | h
    · rcases deleteFold_deleted_src trash logDel paths ([], [], fs) p
        (by simpa [deleteFiles] using h) with h1 | h1
      · simp at h1
      · exact h1
    · have h' : ∃ r, (p, r)
          ∈ (paths.foldl (deleteStep trash logDel) ([], [], fs)).2.1 := by
        simpa [deleteFiles] using h
      obtain ⟨r, hr⟩ := h'
      rcases deleteFold_failed_src trash logDel paths ([], [], fs) p r hr
        with h1 | h1
      · simp at h1
      · exact h1
  · intro p hp hn
    have := deleteFold_notfound trash logDel paths ([], [], fs) p hp hn
    simpa [deleteFiles] using this
  · intro hlog
    have hperm := deleteFold_perm trash logDel paths ([], [], fs) hlog
    simp only [List.nil_append, List.map_nil] at hperm
    constructor
    · have := hperm.length_eq
      simpa [deleteFiles] using this
    · intro hnd p hboth
      have hnodup : ((paths.foldl (deleteStep trash logDel) ([], [], fs)).1
          ++ (paths.foldl (deleteStep trash logDel)
            ([], [], fs)).2.1.map Prod.fst).Nodup :=
        hperm.nodup_iff.mpr hnd
      have hdis := (List.nodup_append.mp hnodup).2.2
      exact hdis (by simpa [deleteFiles] using hboth.1)
        (by simpa [deleteFiles] using hboth.2)

/-- C10 witness: a two-path batch with one existing and one missing file
and a log append that never fails; the result partitions the input and
reports the missing file. -/
theorem claim_C10_deleteFiles_partition_witness :
    ((deleteFiles (fun p => if p = "a" then some "d" else none)
        (fun _ => Except.ok ()) (fun _ => Except.ok ())
        ["a", "b"]).1.total = 2)
    ∧ (("b", "File not found") ∈ (deleteFiles
        (fun p => if p = "a" then some "d" else none)
        (fun _ => Except.ok ()) (fun _ => Except.ok ())
        ["a", "b"]).1.failed)
    ∧ ((deleteFiles (fun p => if p = "a" then some "d" else none)
        (fun _ => Except.ok ()) (fun _ => Except.ok ())
        ["a", "b"]).1.deleted.length
      + (deleteFiles (fun p => if p = "a" then some "d" else none)
        (fun _ => Except.ok ()) (fun _ => Except.ok ())
        ["a", "b"]).1.failed.length = 2) :=
  let h := claim_C10_deleteFiles_partition
    (fun p => if p = "a" then some "d" else none) (fun _ => Except.ok ())
    (fun _ => Except.ok ()) ["a", "b"]
  ⟨h.1, h.2.2.2.1 "b" (by simp) (by simp),
   (h.2.2.2.2 (fun p _ => rfl)).1⟩

/-- C10, counterexample: when the trash call succeeds but the subsequent
audit-log append throws (deletionManager.js line 36), the per-file catch
pushes the already-deleted path into `failed` as well: the path appears in
both lists and the list lengths sum to 2 while `total` is 1, so an input
path does not always appear in exactly one of `deleted` and `failed`. -/
theorem claim_C10_counterexample :
    ((deleteFiles (fun p => if p = "a" then some "d" else none)
        (fun _ => Except.ok ()) (fun _ => Except.error "log append failed")
        ["a"]).1.deleted = ["a"])
    ∧ ((deleteFiles (fun p => if p = "a" then some "d" else none)
        (fun _ => Except.ok ()) (fun _ => Except.error "log append failed")
        ["a"]).1.failed = [("a", "log append failed")])
    ∧ ((deleteFiles (fun p => if p = "a" then some "d" else none)
        (fun _ => Except.ok ()) (fun _ => Except.error "log append failed")
        ["a"]).1.total = 1)
    ∧ ("a" ∈ (deleteFiles (fun p => if p = "a" then some "d" else none)
        (fun _ => Except.ok ()) (fun _ => Except.error "log append failed")
        ["a"]).1.deleted
      ∧ "a" ∈ ((deleteFiles (fun p => if p = "a" then some "d" else none)
        (fun _ => Except.ok ()) (fun _ => Except.error "log append failed")
        ["a"]).1.failed.map Prod.fst)) := by
  refine ⟨?_, ?_, rfl, ?_, ?_⟩ <;>
    simp [deleteFiles, deleteStep]

/-! ## Claim C8: restore idempotence -/

theorem restoreStep_fs_isSome (b : String → Option String) (st : RestoreState)
    (f : ManifestFile) (q : String) (h : (st.fs q).isSome) :
    ((restoreStep b st f).fs q).isSome := by
  rw [restoreStep]
  cases st.fs f.originalPath with
  | some v => exact h
  | none =>
    cases b f.backupPath with
    | none => exact h
    | some content =>
      dsimp only
      by_cases hc : content = f.hash
      · rw [if_pos hc]
        dsimp only
        by_cases hq : q = f.originalPath <;> simp [hq, h]
      · rw [if_neg hc]
        dsimp only
        by_cases hq : q = f.originalPath <;> simp [hq, h]

theorem restoreFold_fs_isSome (b : String → Option String) :
    ∀ (files : List ManifestFile) (st : RestoreState) (q : String),
      (st.fs q).isSome →
      ((files.foldl (restoreStep b) st).fs q).isSome := by
  intro files
  induction files with
  | nil => intro st q h; exact h
  | cons f rest ih =>
    intro st q h
    rw [List.foldl_cons]
    exact ih _ q (restoreStep_fs_isSome b st f q h)

theorem restoreStep_after (b : String → Option String) (st : RestoreState)
    (f : ManifestFile) :
    ((restoreStep b st f).fs f.originalPath).isSome
      ∨ b f.backupPath = none := by
  rw [restoreStep]
  cases hx : st.fs f.originalPath with
  | some v => exact Or.inl (by rw [hx]; rfl)
  | none =>
    cases hb : b f.backupPath with
    | none => exact Or.inr rfl
    | some content =>
      left
      dsimp only
      by_cases hc : content = f.hash
      · rw [if_pos hc]; simp
      · rw [if_neg hc]; simp

theorem restoreFold_after (b : String → Option String) :
    ∀ (files : List ManifestFile) (st : RestoreState) (f : ManifestFile),
      f ∈ files →
      ((files.foldl (restoreStep b) st).fs f.originalPath).isSome
        ∨ b f.backupPath = none := by
  intro files
  induction files with
  | nil => intro st f h; simp at h
  | cons g rest ih =>
    intro st f h
    rw [List.foldl_cons]
    rcases List.mem_cons.mp h with h1 | h1
    · subst h1
      rcases restoreStep_after b st f with h2 | h2
      · exact Or.inl (restoreFold_fs_isSome b rest _ _ h2)
      · exact Or.inr h2
    · exact ih _ f h1

theorem restoreStep_fs_noop (b : String → Option String) (st : RestoreState)
    (f : ManifestFile)
    (h : (st.fs f.originalPath).isSome ∨ b f.backupPath = none) :
    (restoreStep b st f).fs = st.fs := by
  rw [restoreStep]
  cases hx : st.fs f.originalPath with
  | some v => rfl
  | none =>
    rcases h with h1 | h1
    · rw [hx] at h1; simp at h1
    · rw [h1]

theorem restoreFold_fs_noop (b : String → Option String) :
    ∀ (files : List ManifestFile) (st : RestoreState),
      (∀ f ∈ files, (st.fs f.originalPath).isSome ∨ b f.backupPath = none) →
      (files.foldl (restoreStep b) st).fs = st.fs := by
  intro files
  induction files with
  | nil => intro st _; rfl
  | cons f rest ih =>
    intro st h
    rw [List.foldl_cons]
    have hstep : (restoreStep b st f).fs = st.fs :=
      restoreStep_fs_noop b st f (h f (List.mem_cons_self _ _))
    have hrest : ∀ g ∈ rest,
        ((restoreStep b st f).fs g.originalPath).isSome
          ∨ b g.backupPath = none := by
      intro g hg
      rw [hstep]
      exact h g (List.mem_cons_of_mem _ hg)
    rw [ih _ hrest, hstep]

theorem restoreStep_restored_mono (b : String → Option String)
    (st : RestoreState) (f : ManifestFile) (x : String)
    (h : x ∈ st.restored) : x ∈ (restoreStep b st f).restored := by
  rw [restoreStep]
  cases st.fs f.originalPath with
  | some v => exact List.mem_append_left _ h
  | none =>
    cases b f.backupPath with
    | none => exact h
    | some content =>
      dsimp only
      by_cases hc : content = f.hash
      · rw [if_pos hc]
        exact List.mem_append_left _ h
      · rw [if_neg hc]
        exact h

theorem restoreFold_restored_mono (b : String → Option String) :
    ∀ (files : List ManifestFile) (st : RestoreState) (x : String),
      x ∈ st.restored → x ∈ (files.foldl (restoreStep b) st).restored := by
  intro files
  induction files with
  | nil => intro st x h; exact h
  | cons f rest ih =>
    intro st x h
    rw [List.foldl_cons]
    exact ih _ x (restoreStep_restored_mono b st f x h)

theorem restoreFold_restored_mem (b : String → Option String) :
    ∀ (files : List ManifestFile) (st : RestoreState) (f : ManifestFile),
      f ∈ files → (st.fs f.originalPath).isSome →
      f.originalPath ∈ (files.foldl (restoreStep b) st).restored := by
  intro files
  induction files with
  | nil => intro st f h; simp at h
  | cons g rest ih =>
    intro st f h hs
    rw [List.foldl_cons]
    rcases List.mem_cons.mp h with h1 | h1
    · subst h1
      refine restoreFold_restored_mono b rest _ f.originalPath ?_
      rw [restoreStep]
      cases hx : st.fs f.originalPath with
      | some v => exact List.mem_append_right _ (List.mem_singleton.mpr rfl)
      | none => rw [hx] at hs; simp at hs
    · exact ih _ f h1 (restoreStep_fs_isSome b st g f.originalPath hs)

theorem restoreFold_failed_none (b : String → Option String) :
    ∀ (files : List ManifestFile) (st : RestoreState) (q r : String),
      (q, r) ∈ (files.foldl (restoreStep b) st).failed →
      (∀ f ∈ files, (st.fs f.originalPath).isSome ∨ b f.backupPath = none) →
      (q, r) ∈ st.failed ∨ st.fs q = none := by
  intro files
  induction files with
  | nil => intro st q r h _; exact Or.inl h
  | cons f rest ih =>
    intro st q r hf h
    rw [List.foldl_cons] at hf
    rcases h f (List.mem_cons_self _ _) with h1 | h1
    · obtain ⟨v, hv⟩ := Option.isSome_iff_exists.mp h1
      have hstep : restoreStep b st f = { st with
          restored := st.restored ++ [f.originalPath] } := by
        rw [restoreStep, hv]
      rw [hstep] at hf
      have h5 := ih _ q r hf (fun g hg => h g (List.mem_cons_of_mem _ hg))
      exact h5
    · cases hx : st.fs f.originalPath with
      | some v =>
        have hstep : restoreStep b st f = { st with
            restored := st.restored ++ [f.originalPath] } := by
          rw [restoreStep, hx]
        rw [hstep] at hf
        have h5 := ih _ q r hf (fun g hg => h g (List.mem_cons_of_mem _ hg))
        exact h5
      | none =>
        have hstep : restoreStep b st f = { st with
            failed := st.failed ++ [(f.originalPath, "copy failed")] } := by
          rw [restoreStep, hx, h1]
        rw [hstep] at hf
        rcases ih _ q r hf (fun g hg => h g (List.mem_cons_of_mem _ hg))
          with h2 | h2
        · rcases List.mem_append.mp h2 with h3 | h3
          · exact Or.inl h3
          · simp only [List.mem_singleton, Prod.mk.injEq] at h3
            exact Or.inr (h3.1 ▸ hx)
        · exact Or.inr h2

/-- C8: `restoreFromBackup` is idempotent.  Running the restore twice from
any starting filesystem yields the same final filesystem as running it once
(first conjunct), and in the second run every manifest entry whose original
path already exists is reported restored — without being copied, since the
filesystem does not change — and is never reported failed (second
conjunct). -/
theorem claim_C8_restore_idempotent (b : String → Option String)
    (files : List ManifestFile) (fs : Fs) :
    (restoreFromBackup b files (restoreFromBackup b files fs).fs).fs
      = (restoreFromBackup b files fs).fs
    ∧ ∀ f ∈ files,
        ((restoreFromBackup b files fs).fs f.originalPath).isSome →
        f.originalPath ∈ (restoreFromBackup b files
            (restoreFromBackup b files fs).fs).restored
        ∧ ∀ r, (f.originalPath, r) ∉ (restoreFromBackup b files
            (restoreFromBackup b files fs).fs).failed := by
  have hH : ∀ f ∈ files,
      (((restoreFromBackup b files fs).fs) f.originalPath).isSome
        ∨ b f.backupPath = none := by
    intro f hf
    exact restoreFold_after b files ⟨fs, [], []⟩ f hf
  constructor
  · exact restoreFold_fs_noop b files
      ⟨(restoreFromBackup b files fs).fs, [], []⟩ hH
  · intro f hf hs
    constructor
    · exact restoreFold_restored_mem b files
        ⟨(restoreFromBackup b files fs).fs, [], []⟩ f hf hs
    · intro r hmem
      rcases restoreFold_failed_none b files
          ⟨(restoreFromBackup b files fs).fs, [], []⟩
          f.originalPath r hmem hH with h1 | h1
      · simp at h1
      · rw [h1] at hs
        simp at hs

/-- C8 witness: a one-entry manifest restored into an empty filesystem; the
second run reports the entry as already restored with no failure. -/
theorem claim_C8_restore_idempotent_witness :
    "orig" ∈ (restoreFromBackup
        (fun p => if p = "bak" then some "d" else none)
        [⟨"orig", "bak", "d"⟩]
        (restoreFromBackup (fun p => if p = "bak" then some "d" else none)
          [⟨"orig", "bak", "d"⟩] (fun _ => none)).fs).restored :=
  ((claim_C8_restore_idempotent
    (fun p => if p = "bak" then some "d" else none)
    [⟨"orig", "bak", "d"⟩] (fun _ => none)).2
    ⟨"orig", "bak", "d"⟩ (by simp)
    (by simp [restoreFromBackup, restoreStep])).1

/-! ## Claim C9: quality ranking and modification date -/

theorem pathDepth_apng : pathDepth "a.png" = 1 := by decide

theorem pathDepth_deep : pathDepth "a/b/c/d/e/f/g/h/i/j.png" = 10 := by decide

/-- C9 as amended: when two images agree in resolution, byte size,
(lower-cased) format and path depth — the other three inputs of the quality
score — the more recently modified one ranks strictly higher and becomes
the recommended image of a two-image group, provided the newer image was
modified within the last 365 days (otherwise both recency terms clamp to
zero and the scores tie) and the older image's raw score is below the `1.0`
cap (otherwise both clamped scores tie at `1`). -/
theorem claim_C9_quality_ranking (now : ℚ) (a b : ImageRec)
    (hres : a.resolution = b.resolution) (hsize : a.size = b.size)
    (hfmt : toLowerStr a.format = toLowerStr b.format)
    (hdepth : pathDepth a.path = pathDepth b.path)
    (hbrec : b.recommended = false)
    (hmod : b.modified < a.modified)
    (hrecent : now - a.modified < 31536000000)
    (hclamp : rawQualityScore now b < 1) :
    calculateQualityScore now b < calculateQualityScore now a
    ∧ ∀ g : DupGroup, g.images = [a, b] ∨ g.images = [b, a] →
      ((rankImagesWithML now [g]).map fun g' =>
        g'.images.map fun i => (i.modified, i.recommended))
        = [[(a.modified, true), (b.modified, false)]] := by
  have hone : (now - a.modified) / (1000 * 60 * 60 * 24) / 365 < 1 := by
    rw [div_lt_one (by norm_num : (0 : ℚ) < 365),
      div_lt_iff (by norm_num : (0 : ℚ) < 1000 * 60 * 60 * 24)]
    linarith
  have hApos : (0 : ℚ) < 1 - (now - a.modified) / (1000 * 60 * 60 * 24) / 365 := by
    linarith
  have hdb : (now - a.modified) / (1000 * 60 * 60 * 24) / 365
      < (now - b.modified) / (1000 * 60 * 60 * 24) / 365 := by
    have hsub : now - a.modified < now - b.modified := by linarith
    exact (div_lt_div_right (by norm_num : (0 : ℚ) < 365)).mpr
      ((div_lt_div_right (by norm_num : (0 : ℚ) < 1000 * 60 * 60 * 24)).mpr hsub)
  have hterm : max 0 (1 - (now - b.modified) / (1000 * 60 * 60 * 24) / 365)
      < max 0 (1 - (now - a.modified) / (1000 * 60 * 60 * 24) / 365) := by
    rw [max_eq_right hApos.le]
    exact max_lt hApos (by linarith)
  have hraw : rawQualityScore now b < rawQualityScore now a := by
    rw [rawQualityScore, rawQualityScore, hres, hsize, hfmt, hdepth]
    linarith
  have hQ : calculateQualityScore now b < calculateQualityScore now a := by
    rw [calculateQualityScore, calculateQualityScore, min_eq_left hclamp.le]
    exact lt_min hraw hclamp
  refine ⟨hQ, ?_⟩
  intro g hg
  rcases hg with h | h
  · simp [rankImagesWithML, rankGroup, h, sortDescBy, insertDescBy,
      not_le.mpr hQ, hbrec]
  · simp [rankImagesWithML, rankGroup, h, sortDescBy, insertDescBy, hQ.le, hbrec]

/-- C9 witness: the amended theorem at two concrete images differing only
in modification date (100 days apart, the newer one modified today). -/
theorem claim_C9_quality_ranking_witness :
    calculateQualityScore nowC9 imgTieOld < calculateQualityScore nowC9 imgTieNew :=
  (claim_C9_quality_ranking nowC9 imgTieNew imgTieOld rfl rfl rfl rfl rfl
    (by norm_num [imgTieNew, imgTieOld])
    (by norm_num [nowC9, imgTieNew])
    (by norm_num [rawQualityScore, nowC9, imgTieOld, toLowerStr_png,
      pathDepth_apng, formatScore, min_def, max_def])).1

theorem qualityScore_le_C9 :
    calculateQualityScore nowC9 imgNewC9 ≤ calculateQualityScore nowC9 imgOldC9 := by
  simp only [calculateQualityScore, rawQualityScore, nowC9, imgNewC9, imgOldC9,
    toLowerStr_png, pathDepth_apng, pathDepth_deep, formatScore]
  norm_num [min_def, max_def]

/-- C9, counterexample: two images of equal resolution and format but
different modification dates, where the older image is larger (5 MB versus
0 bytes) and lies deeper in the directory tree (depth 10 versus 1).  The
quality ranking places the *older* image first and recommends it, because
byte size and path depth also enter the score — equal resolution and format
alone do not make recency decide the order. -/
theorem claim_C9_counterexample :
    ((rankImagesWithML nowC9 [groupC9]).map fun g =>
        g.images.map fun i => (i.path, i.recommended))
      = [[(imgOldC9.path, true), (imgNewC9.path, false)]]
    ∧ imgOldC9.modified < imgNewC9.modified
    ∧ imgNewC9.resolution = imgOldC9.resolution
    ∧ imgNewC9.format = imgOldC9.format := by
  refine ⟨?_, by norm_num [imgOldC9, imgNewC9], rfl, rfl⟩
  have hrank : rankImagesWithML nowC9 [groupC9]
      = [{ groupC9 with images :=
          [{ imgOldC9 with
              recommended := true,
              qualityScore := calculateQualityScore nowC9 imgOldC9 },
            { imgNewC9 with
              qualityScore := calculateQualityScore nowC9 imgNewC9 }] }] := by
    simp only [rankImagesWithML, rankGroup, groupC9, List.map_cons,
      List.map_nil, sortDescBy, insertDescBy]
    rw [if_pos]
    exact qualityScore_le_C9
  rw [hrank]
  simp [imgOldC9, imgNewC9]

/-! ## Claim C1: the emitted-group invariant -/

theorem absorbScan_subset (outcome : ℕ → ℕ → ConsensusOutcome) (i : ℕ) :
    ∀ (js processed : List ℕ) (j : ℕ),
      j ∈ (absorbScan outcome i js processed).1 → j ∈ js := by
  intro js
  induction js with
  | nil => intro processed j h; simp [absorbScan] at h
  | cons j' js ih =>
    intro processed j h
    rw [absorbScan] at h
    by_cases hp : j' ∈ processed
    · rw [if_pos hp] at h
      exact List.mem_cons_of_mem _ (ih processed j h)
    · rw [if_neg hp] at h
      by_cases hm : absorbMatch (outcome i j') = true
      · rw [if_pos hm] at h
        rcases List.mem_cons.mp h with h1 | h1
        · exact h1 ▸ List.mem_cons_self _ _
        · exact List.mem_cons_of_mem _ (ih _ j h1)
      · rw [if_neg hm] at h
        exact List.mem_cons_of_mem _ (ih processed j h)

theorem seedLoop_bounds (outcome : ℕ → ℕ → ConsensusOutcome) (n : ℕ) :
    ∀ (is processed : List ℕ), (∀ i ∈ is, i < n) →
      ∀ c ∈ seedLoop outcome n is processed,
        c.1 < n ∧ c.2 ≠ [] ∧ ∀ j ∈ c.2, j < n := by
  intro is
  induction is with
  | nil => intro processed _ c hc; simp [seedLoop] at hc
  | cons i' is ih =>
    intro processed hb c hc
    rw [seedLoop] at hc
    by_cases hp : i' ∈ processed
    · rw [if_pos hp] at hc
      exact ih processed (fun i hi => hb i (List.mem_cons_of_mem _ hi)) c hc
    · rw [if_neg hp] at hc
      rcases List.mem_append.mp hc with h1 | h1
      · by_cases hs : (absorbScan outcome i' (List.range' (i' + 1) (n - (i' + 1)))
            (i' :: processed)).1 ≠ []
        · rw [if_pos hs] at h1
          have h2 := List.mem_singleton.mp h1
          subst h2
          refine ⟨hb i' (List.mem_cons_self _ _), hs, ?_⟩
          intro j hj
          have hj2 := absorbScan_subset outcome i' _ _ j hj
          have hj3 := List.mem_range'_1.mp hj2
          have hi' : i' < n := hb i' (List.mem_cons_self _ _)
          omega
        · rw [if_neg hs] at h1
          simp at h1
      · exact ih _ (fun i hi => hb i (List.mem_cons_of_mem _ hi)) c h1

theorem filterMap_getElem (l : List ImageRec) :
    ∀ idxs : List ℕ, (∀ k ∈ idxs, k < l.length) →
      (idxs.filterMap fun k => l[k]?).length = idxs.length
      ∧ ∀ x ∈ idxs.filterMap fun k => l[k]?, x ∈ l := by
  intro idxs
  induction idxs with
  | nil => intro _; simp
  | cons k ks ih =>
    intro hb
    have hk : k < l.length := hb k (List.mem_cons_self _ _)
    have hsome : l[k]? = some l[k] := List.getElem?_eq_getElem hk
    obtain ⟨ihl, ihm⟩ := ih fun j hj => hb j (List.mem_cons_of_mem _ hj)
    constructor
    · rw [List.filterMap_cons, hsome, List.length_cons, ihl, List.length_cons]
    · intro x hx
      rw [List.filterMap_cons, hsome] at hx
      rcases List.mem_cons.mp hx with h1 | h1
      · exact h1 ▸ List.getElem_mem hk
      · exact ihm x h1

theorem uniqueImages_subset (images : List ImageRec) :
    ∀ x ∈ uniqueImages images, x ∈ images := by
  intro x hx
  rw [uniqueImages] at hx
  rcases List.mem_filterMap.mp hx with ⟨kg, hkg, hif⟩
  by_cases hlen : kg.2.length > 1
  · rw [if_pos hlen] at hif
    simp at hif
  · rw [if_neg hlen] at hif
    have hmem : x ∈ kg.2 := by
      cases h2 : kg.2 with
      | nil => rw [h2] at hif; simp at hif
      | cons a t =>
        rw [h2] at hif
        simp only [List.head?_cons, Option.some_inj] at hif
        rw [← hif]
        exact List.mem_cons_self _ _
    have hkg' : kg ∈ groupByKey (fun i : ImageRec => i.hash) images := hkg
    exact groupByKey_elem (fun i : ImageRec => i.hash) images kg hkg' x hmem

theorem detect_initial (images : List ImageRec)
    (outcome : ℕ → ℕ → ConsensusOutcome) :
    ∀ g₀ ∈ exactGroups images
        ++ (if (uniqueImages images).length > 1 then
             detectWithEnterpriseAI (uniqueImages images) outcome else []),
      2 ≤ g₀.images.length ∧ ∀ x ∈ g₀.images, x ∈ images := by
  intro g₀ hg₀
  rcases List.mem_append.mp hg₀ with h | h
  · rw [exactGroups] at h
    rcases List.mem_filterMap.mp h with ⟨kg, hkg, hif⟩
    by_cases hlen : kg.2.length > 1
    · rw [if_pos hlen] at hif
      obtain rfl := Option.some_inj.mp hif
      have hkg' : kg ∈ groupByKey (fun i : ImageRec => i.hash) images := hkg
      exact ⟨hlen, fun x hx =>
        groupByKey_elem (fun i : ImageRec => i.hash) images kg hkg' x hx⟩
    · rw [if_neg hlen] at hif
      simp at hif
  · by_cases hu : (uniqueImages images).length > 1
    · rw [if_pos hu] at h
      rw [detectWithEnterpriseAI] at h
      rcases List.mem_map.mp h with ⟨c, hc, rfl⟩
      have hb := seedLoop_bounds outcome (uniqueImages images).length
        (List.range (uniqueImages images).length) [] (by simp [List.mem_range]) c hc
      have hidx : ∀ k ∈ c.1 :: c.2, k < (uniqueImages images).length := by
        intro k hk
        rcases List.mem_cons.mp hk with h1 | h1
        · exact h1 ▸ hb.1
        · exact hb.2.2 k h1
      obtain ⟨hflen, hfmem⟩ := filterMap_getElem (uniqueImages images) _ hidx
      constructor
      · rw [hflen, List.length_cons]
        have : c.2.length ≠ 0 := fun h0 =>
          hb.2.1 (List.length_eq_zero.mp h0)
        omega
      · intro x hx
        exact uniqueImages_subset images x (hfmem x hx)
    · rw [if_neg hu] at h
      simp at h

theorem insertDescBy_length (f : ImageRec → ℚ) (x : ImageRec) :
    ∀ l : List ImageRec, (insertDescBy f x l).length = l.length + 1 := by
  intro l
  induction l with
  | nil => rfl
  | cons y ys ih =>
    rw [insertDescBy]
    by_cases h : f y ≥ f x
    · rw [if_pos h, List.length_cons, ih, List.length_cons]
    · rw [if_neg h]
      rfl

theorem insertDescBy_mem (f : ImageRec → ℚ) (x : ImageRec) :
    ∀ (l : List ImageRec) (y : ImageRec),
      y ∈ insertDescBy f x l → y = x ∨ y ∈ l := by
  intro l
  induction l with
  | nil =>
    intro y h
    rw [insertDescBy] at h
    exact Or.inl (List.mem_singleton.mp h)
  | cons z zs ih =>
    intro y h
    rw [insertDescBy] at h
    by_cases hz : f z ≥ f x
    · rw [if_pos hz] at h
      rcases List.mem_cons.mp h with h1 | h1
      · exact Or.inr (h1 ▸ List.mem_cons_self _ _)
      · rcases ih y h1 with h2 | h2
        · exact Or.inl h2
        · exact Or.inr (List.mem_cons_of_mem _ h2)
    · rw [if_neg hz] at h
      rcases List.mem_cons.mp h with h1 | h1
      · exact Or.inl h1
      · exact Or.inr h1

theorem sortDescBy_length (f : ImageRec → ℚ) :
    ∀ l : List ImageRec, (sortDescBy f l).length = l.length := by
  intro l
  induction l with
  | nil => rfl
  | cons x xs ih =>
    rw [sortDescBy, insertDescBy_length, ih, List.length_cons]

theorem sortDescBy_mem (f : ImageRec → ℚ) :
    ∀ (l : List ImageRec) (y : ImageRec), y ∈ sortDescBy f l → y ∈ l := by
  intro l
  induction l with
  | nil => intro y h; simp [sortDescBy] at h
  | cons x xs ih =>
    intro y h
    rw [sortDescBy] at h
    rcases insertDescBy_mem f x _ y h with h1 | h1
    · exact h1 ▸ List.mem_cons_self _ _
    · exact List.mem_cons_of_mem _ (ih y h1)

theorem rankGroup_spec (now : ℚ) (g : DupGroup)
    (hlen : 2 ≤ g.images.length)
    (hall : ∀ x ∈ g.images, x.recommended = false) :
    (rankGroup now g).images.length = g.images.length
    ∧ ((rankGroup now g).images.filter fun i => i.recommended).length = 1 := by
  have hscored_rec : ∀ x ∈ g.images.map fun img =>
      { img with qualityScore := calculateQualityScore now img },
      x.recommended = false := by
    intro x hx
    rcases List.mem_map.mp hx with ⟨y, hy, rfl⟩
    exact hall y hy
  have hsort_len : (sortDescBy (fun i => i.qualityScore)
      (g.images.map fun img =>
        { img with qualityScore := calculateQualityScore now img })).length
      = g.images.length := by
    rw [sortDescBy_length, List.length_map]
  cases hs : sortDescBy (fun i => i.qualityScore)
      (g.images.map fun img =>
        { img with qualityScore := calculateQualityScore now img }) with
  | nil =>
    rw [hs] at hsort_len
    simp at hsort_len
    omega
  | cons hd tl =>
    have htl_rec : ∀ x ∈ tl, x.recommended = false := by
      intro x hx
      exact hscored_rec x (sortDescBy_mem _ _ x
        (hs ▸ List.mem_cons_of_mem _ hx))
    have hbody : (rankGroup now g).images
        = { hd with recommended := true } :: tl := by
      rw [rankGroup]
      dsimp only
      rw [hs]
    constructor
    · rw [hbody, List.length_cons]
      rw [hs] at hsort_len
      rw [List.length_cons] at hsort_len
      omega
    · rw [hbody]
      rw [List.filter_cons]
      have hhd : ({ hd with recommended := true } : ImageRec).recommended = true :=
        rfl
      rw [hhd]
      have htl : tl.filter (fun i => i.recommended) = [] := by
        rw [List.filter_eq_nil_iff]
        intro x hx
        simp [htl_rec x hx]
      simp [htl]

theorem verifyGroup_spec (g : DupGroup)
    (hc : (g.images.filter fun i => i.recommended).length = 1)
    (hl : 2 ≤ g.images.length) :
    (verifyGroup g).images = g.images := by
  rw [verifyGroup]
  dsimp only
  rw [hc]
  rw [if_neg (by omega), if_neg (by omega)]

/-- C1: for fresh scanner records (no `recommended` flag set), every group
emitted by `detectDuplicates` holds at least two images, exactly one of
them is recommended, and the recommended image is never among the group's
deletion candidates. -/
theorem claim_C1_group_invariant (now : ℚ) (images : List ImageRec)
    (outcome : ℕ → ℕ → ConsensusOutcome)
    (hfresh : ∀ x ∈ images, x.recommended = false) :
    ∀ g ∈ detectDuplicates now images outcome,
      2 ≤ g.images.length
      ∧ (g.images.filter fun i => i.recommended).length = 1
      ∧ ∀ x ∈ g.images, x.recommended = true →
          x ∉ candidatesForDeletion g := by
  intro g hg
  rw [detectDuplicates] at hg
  rw [verifySafetyBeforeReturn] at hg
  rcases List.mem_map.mp hg with ⟨g₁, hg₁, rfl⟩
  rw [rankImagesWithML] at hg₁
  rcases List.mem_map.mp hg₁ with ⟨g₀, hg₀, rfl⟩
  obtain ⟨hlen0, hsub0⟩ := detect_initial images outcome g₀ hg₀
  have hall0 : ∀ x ∈ g₀.images, x.recommended = false := fun x hx =>
    hfresh x (hsub0 x hx)
  obtain ⟨hrl, hrc⟩ := rankGroup_spec now g₀ hlen0 hall0
  have hrl2 : 2 ≤ (rankGroup now g₀).images.length := by omega
  have hveq : (verifyGroup (rankGroup now g₀)).images
      = (rankGroup now g₀).images := verifyGroup_spec _ hrc hrl2
  refine ⟨by rw [hveq]; omega, by rw [hveq]; exact hrc, ?_⟩
  intro x hx hxr hmem
  rw [candidatesForDeletion] at hmem
  have := List.of_mem_filter hmem
  simp [hxr] at this

/-- C1 witness: the invariant applied to the concrete two-image run whose
digests collide (one exact group comes out): every emitted group passes the
size-two and exactly-one-recommended checks. -/
theorem claim_C1_group_invariant_witness :
    (detectDuplicates 0 [imgSize1, imgSize2] errOracle).all
      (fun g => decide (2 ≤ g.images.length)
        && decide ((g.images.filter fun i => i.recommended).length = 1))
      = true := by
  rw [List.all_eq_true]
  intro g hg
  have h := claim_C1_group_invariant 0 [imgSize1, imgSize2] errOracle
    (by intro x hx
        rcases List.mem_cons.mp hx with h1 | h1
        · rw [h1]; rfl
        · rw [List.mem_singleton.mp h1]; rfl) g hg
  simp [h.1, h.2.1]

end CloneImage











